import Mathlib

/-!
# Verification of the sudoku-solver engine (`sudoku.py`)

A shallow embedding of the solver in `src/sudoku.py` and proofs about it.

Correspondence with the Python source:

* A coordinate `key(row, col) = str(row) + str(col)` (with `0 ≤ row, col ≤ 8`)
  is encoded injectively as the number `9 * row + col : Nat`.
* The dictionaries `values : dict[str, int]` and `candidates : dict[str, str]`
  are encoded as lists of length 81 indexed by the coordinate encoding; the
  candidate string (a string of distinct decimal digits) is encoded as the
  list of its digits in string order.  All digits handled by the solver are
  single characters `0`-`9`, so a digit character and its numeric value are
  identified.
* Python `set` objects (`coords`, the units, `peers[coord]`) carry no
  observable order in the source (and the places where an order could leak,
  `possible_coords[0]` in `get_hidden_single` and `min` in `get_next_coord`,
  are reached only through order-insensitive computations); we fix a concrete
  enumeration order for them.
* The mutually recursive pair `set_digit`/`remove_candidate`, and the
  recursive generator `solutions`, are embedded with an explicit fuel
  argument (Python recursion has no such bound; the fuel versions return
  `none` / truncate when fuel runs out).  The fuel recursion is written with
  a bare `Nat.rec` so that it evaluates lazily inside the kernel.  Theorems
  below (`cascF_fuel_sufficient`, …) show the canonical fuel used by the
  wrappers `removeCandidate`/`setDigit` is always sufficient.
* Mutation of a `Sudoku` object is embedded by state passing: each operation
  returns the new state of its receiver.  `solF` returns the pair
  (list of yielded solutions, final state of `self`).
-/

set_option maxRecDepth 40000

/-- Python `key(row, col)`: the coordinate encoding. -/
def key (row col : Nat) : Nat := 9 * row + col

/-- Python `row_units`.  NOTE: this mirrors the source comprehension
`[{key(row, col) for row in range(9)} for col in range(9)]`, whose inner
loop varies `row` with `col` fixed - so each element is in fact a *column*
of the grid, despite the name and docstring in the source. -/
def rowUnits : List (List Nat) :=
  (List.range 9).map fun col => (List.range 9).map fun row => key row col

/-- Python `col_units` (likewise actually the list of *rows* of the grid). -/
def colUnits : List (List Nat) :=
  (List.range 9).map fun row => (List.range 9).map fun col => key row col

/-- Python `box_units`. -/
def boxUnits : List (List Nat) :=
  (List.range 3).flatMap fun boxRow =>
    (List.range 3).map fun boxCol =>
      (List.range 3).flatMap fun i =>
        (List.range 3).map fun j => key (3 * boxRow + i) (3 * boxCol + j)

/-- Python `all_units = row_units + col_units + box_units`. -/
def allUnits : List (List Nat) := rowUnits ++ colUnits ++ boxUnits

/-- Python `peers[coord]`: the union of `unit - {coord}` over all units
containing `coord` (a Python `set`; we fix one enumeration of it). -/
def peersList (coord : Nat) : List Nat :=
  ((allUnits.filter fun u => u.contains coord).flatMap id).dedup.filter (· ≠ coord)

/-- The `Sudoku` class state: `values`, `candidates` and `has_contradiction`. -/
structure Sudoku where
  values : List Nat
  candidates : List (List Nat)
  has_contradiction : Bool
deriving Repr, DecidableEq

/-- Lookup `self.values[coord]` (0 = empty square). -/
def Sudoku.val (s : Sudoku) (c : Nat) : Nat := s.values.getD c 0

/-- Lookup `self.candidates[coord]`. -/
def Sudoku.cnd (s : Sudoku) (c : Nat) : List Nat := s.candidates.getD c []

/-- Python `get_candidates(coord)` computed from a values dictionary:
the digit itself for a filled square, otherwise all digits `1..9` that do
not occur among the values of the peers. -/
def getCandidatesOf (values : List Nat) (coord : Nat) : List Nat :=
  let digit := values.getD coord 0
  if digit ≠ 0 then [digit]
  else
    let valuesOfPeers := (peersList coord).map fun p => values.getD p 0
    (List.range' 1 9).filter fun n => ¬ valuesOfPeers.contains n

/-- Python `get_candidate_dict()`. -/
def candidateDict (values : List Nat) : List (List Nat) :=
  (List.range 81).map fun c => getCandidatesOf values c

/-- Python `Sudoku.__init__(values, candidates)`: `has_contradiction` is set
to `False`; candidates are derived from scratch when not supplied. -/
def Sudoku.init (values : List Nat) (cands : Option (List (List Nat))) : Sudoku :=
  { values := values
    has_contradiction := false
    candidates :=
      match cands with
      | none => candidateDict values
      | some cs => cs }

/-- Construction from a plain grid (as `generate_from_board` does after
flattening the rows). -/
def mkSudoku (values : List Nat) : Sudoku := Sudoku.init values none

/-- Python `copy()`: `Sudoku(self.values.copy(), self.candidates.copy())`. -/
def copySud (s : Sudoku) : Sudoku := Sudoku.init s.values (some s.candidates)

/-- `self.values[coord] = digit`. -/
def setValue (s : Sudoku) (c d : Nat) : Sudoku := { s with values := s.values.set c d }

/-- `self.candidates[coord] = l`. -/
def setCands (s : Sudoku) (c : Nat) (l : List Nat) : Sudoku :=
  { s with candidates := s.candidates.set c l }

/-- Total number of "excess" candidates: the termination measure for the
`set_digit`/`remove_candidate` cascade.  Each entry contributes its length
minus one, so the measure strictly drops whenever a candidate is removed
from a list that keeps at least one element. -/
def sumT (cs : List (List Nat)) : Nat := (cs.map fun l => l.length - 1).sum

/-- The three mutually recursive "calls" of the propagation cascade:
`remove_candidate`, `set_digit`, and the peer loop inside `set_digit`. -/
inductive CascCall where
  | rc (s : Sudoku) (coord digit : Nat)
  | sd (s : Sudoku) (coord digit : Nat)
  | rp (s : Sudoku) (peers : List Nat) (digit : Nat)

/-- One step of the cascade, parametrised by the interpretation of the
recursive calls.  This is a line-by-line rendering of `remove_candidate`
(case `rc`), `set_digit` (case `sd`) and its peer loop with the
`has_contradiction` early break (case `rp`). -/
def cascStep (rec : CascCall → Option Sudoku) : CascCall → Option Sudoku
  | .rc s coord digit =>
    let cs := s.cnd coord
    if cs.contains digit then
      let l := cs.filter (· ≠ digit)
      let s1 := setCands s coord l
      if l.isEmpty then some { s1 with has_contradiction := true }
      else if l.length = 1 then rec (.sd s1 coord (l.headD 0))
      else some s1
    else some s
  | .sd s coord digit =>
    rec (.rp (setCands (setValue s coord digit) coord [digit]) (peersList coord) digit)
  | .rp s [] _ => some s
  | .rp s (p :: ps) digit =>
    match rec (.rc s p digit) with
    | none => none
    | some r => if r.has_contradiction then some r else rec (.rp r ps digit)

/-- The fuelled cascade; `none` means the fuel ran out. -/
def cascF (n : Nat) : CascCall → Option Sudoku :=
  Nat.rec (motive := fun _ => CascCall → Option Sudoku)
    (fun _ => none) (fun _ ih => cascStep ih) n

theorem cascF_zero (call : CascCall) : cascF 0 call = none := rfl

theorem cascF_succ (n : Nat) (call : CascCall) :
    cascF (n + 1) call = cascStep (cascF n) call := rfl

/-- Python `remove_candidate(coord, digit)` (with provably sufficient fuel). -/
def removeCandidate (s : Sudoku) (coord digit : Nat) : Sudoku :=
  (cascF (245 * sumT s.candidates + 1) (.rc s coord digit)).getD s

/-- Python `set_digit(coord, digit)` (with provably sufficient fuel). -/
def setDigit (s : Sudoku) (coord digit : Nat) : Sudoku :=
  (cascF (245 * sumT s.candidates + 245) (.sd s coord digit)).getD s

/-- Python `get_hidden_single()`: digits 1..9 in the outer loop, the units
of `all_units` in the inner loop; returns the first `(digit, coord)` with
exactly one not-yet-filled coordinate of the unit having the digit among
its candidates. -/
def getHiddenSingle (s : Sudoku) : Option (Nat × Nat) :=
  (List.range' 1 9).findSome? fun digit =>
    allUnits.findSome? fun unit =>
      let possibleCoords := unit.filter fun c => s.val c = 0 ∧ (s.cnd c).contains digit
      if possibleCoords.length = 1 then some (digit, possibleCoords.headD 0) else none

/-- Python `get_next_coord()`: the free coordinate with the fewest
candidates (`min` keeps the first minimum in enumeration order),
`None` when the board has no free coordinate. -/
def getNextCoord (s : Sudoku) : Option Nat :=
  ((List.range 81).filter fun c => s.val c = 0).foldl
    (fun best c =>
      match best with
      | none => some c
      | some b => if (s.cnd c).length < (s.cnd b).length then some c else some b)
    none

/-- Number of empty squares (used only to provide fuel for `solutions`). -/
def countZeros (s : Sudoku) : Nat := ((Finset.range 81).filter fun i => s.val i = 0).card

/-- The two recursive "calls" of the `solutions` generator: a full call on
a board, and the candidate loop at a branch point. -/
inductive SolCall where
  | main (s : Sudoku)
  | branch (s : Sudoku) (coord : Nat) (cands : List Nat)

/-- One step of `solutions`, parametrised by the recursive interpretation.
Case `main` renders the body of `solutions`: set a hidden single on `self`
(no clone) and recurse unless contradictory; otherwise yield `self` if no
free coordinate remains; otherwise run the candidate loop.  Case `branch`
renders `for candidate in self.candidates[next_coord]: ...`, where each
iteration works on a fresh `copy` of `self`.  The second component of the
result is the final state of `self`. -/
def solStep (rec : SolCall → List Sudoku × Sudoku) : SolCall → List Sudoku × Sudoku
  | .main s =>
    match getHiddenSingle s with
    | some (digit, coord) =>
      let s1 := setDigit s coord digit
      if s1.has_contradiction then ([], s1) else rec (.main s1)
    | none =>
      match getNextCoord s with
      | none => ([s], s)
      | some c => ((rec (.branch s c (s.cnd c))).1, s)
  | .branch s _ [] => ([], s)
  | .branch s c (d :: ds) =>
    let t := setDigit (copySud s) c d
    ((if t.has_contradiction then [] else (rec (.main t)).1) ++ (rec (.branch s c ds)).1, s)

/-- The fuelled `solutions`; at fuel 0 the search is truncated (this never
happens for the boards considered below, whose recursion depth is bounded
by the number of empty squares). -/
def solF (n : Nat) : SolCall → List Sudoku × Sudoku
  | call =>
    Nat.rec (motive := fun _ => SolCall → List Sudoku × Sudoku)
      (fun call' =>
        match call' with
        | .main s => ([], s)
        | .branch s _ _ => ([], s))
      (fun _ ih => solStep ih) n call

theorem solF_zero_main (s : Sudoku) : solF 0 (.main s) = ([], s) := rfl

theorem solF_zero_branch (s : Sudoku) (c : Nat) (ds : List Nat) :
    solF 0 (.branch s c ds) = ([], s) := rfl

theorem solF_succ (n : Nat) (call : SolCall) :
    solF (n + 1) call = solStep (solF n) call := rfl

/-- A full run of `solutions()` on a board: the yielded solutions and the
final state of the receiver. -/
def solutionsAux (n : Nat) (s : Sudoku) : List Sudoku × Sudoku := solF n (.main s)

/-- The list of boards yielded by `solutions()`. -/
def solutions (s : Sudoku) : List Sudoku := (solutionsAux (11 * countZeros s + 11) s).1

/-- Python `to_digit` inside `generate_from_string` (`int(c)` for a digit
character, else 0). -/
def toDigit (c : Char) : Nat := if c.isDigit then c.toNat - 48 else 0

/-- Python `generate_from_string`: strip newlines, require exactly 81
characters (the `assert`), digits become clues and everything else is
an empty square. -/
def generateFromString (str : String) : Option Sudoku :=
  let chars := str.toList.filter (· ≠ '\n')
  if chars.length = 81 then some (mkSudoku (chars.map toDigit)) else none

/-- Python `to_line`: the values in row-major order as a digit string. -/
def toLine (s : Sudoku) : String := String.mk (s.values.map fun d => Char.ofNat (48 + d))

/-- Unit order as the specification describes it: rows first, then columns,
then boxes.  Since the source's `row_units` actually holds the columns (see
`rowUnits`), the spec order is `colUnits ++ rowUnits ++ boxUnits`. -/
def specOrderUnits : List (List Nat) := colUnits ++ rowUnits ++ boxUnits

/-- `get_hidden_single` with the unit order claimed by the specification. -/
def getHiddenSingleSpec (s : Sudoku) : Option (Nat × Nat) :=
  (List.range' 1 9).findSome? fun digit =>
    specOrderUnits.findSome? fun unit =>
      let possibleCoords := unit.filter fun c => s.val c = 0 ∧ (s.cnd c).contains digit
      if possibleCoords.length = 1 then some (digit, possibleCoords.headD 0) else none

/-! ## Basic facts about lists, units, and peers -/

theorem getD_set_self {α : Type} (l : List α) (i : Nat) (a d : α) (h : i < l.length) :
    (l.set i a).getD i d = a := by
  simp [List.getD, List.getElem?_set_eq_of_lt a h]

theorem getD_set_ne {α : Type} (l : List α) {i j : Nat} (a : α) (d : α) (h : i ≠ j) :
    (l.set i a).getD j d = l.getD j d := by
  simp [List.getD, List.getElem?_set_ne h]

theorem lt_length_of_getD_ne {α : Type} {l : List α} {i : Nat} {d : α} (h : l.getD i d ≠ d) :
    i < l.length := by
  by_contra hc
  push_neg at hc
  exact h (by simp [List.getD, List.getElem?_eq_none hc])

theorem getD_map_range {α : Type} {n i : Nat} (f : Nat → α) (d : α) (h : i < n) :
    ((List.range n).map f).getD i d = f i := by
  simp [List.getD, List.getElem?_map, List.getElem?_range h]

theorem getD_replicate {α : Type} {n i : Nat} (a d : α) (h : i < n) :
    (List.replicate n a).getD i d = a := by
  simp [List.getD, List.getElem?_replicate, h]

theorem allUnits_coords_lt : ∀ u ∈ allUnits, ∀ c ∈ u, c < 81 := by decide

theorem allUnits_length : ∀ u ∈ allUnits, u.length = 9 := by decide

theorem allUnits_nodup : ∀ u ∈ allUnits, u.Nodup := by decide

theorem mem_peersList {i j : Nat} :
    j ∈ peersList i ↔ j ≠ i ∧ ∃ u ∈ allUnits, i ∈ u ∧ j ∈ u := by
  unfold peersList
  constructor
  · intro h
    obtain ⟨h1, h2⟩ := List.mem_filter.mp h
    obtain ⟨u, hu, hju⟩ := List.mem_flatMap.mp (List.mem_dedup.mp h1)
    obtain ⟨hu1, hu2⟩ := List.mem_filter.mp hu
    refine ⟨by simpa using h2, u, hu1, List.elem_iff.mp hu2, by simpa using hju⟩
  · rintro ⟨hne, u, hu, hiu, hju⟩
    refine List.mem_filter.mpr ⟨List.mem_dedup.mpr ?_, by simpa using hne⟩
    exact List.mem_flatMap.mpr ⟨u, List.mem_filter.mpr ⟨hu, List.elem_iff.mpr hiu⟩, by simpa using hju⟩

theorem peers_lt {i j : Nat} (h : j ∈ peersList i) : j < 81 := by
  obtain ⟨-, u, hu, -, hju⟩ := mem_peersList.mp h
  exact allUnits_coords_lt u hu j hju

theorem mem_peers_symm {i j : Nat} (h : j ∈ peersList i) : i ∈ peersList j := by
  obtain ⟨hne, u, hu, hiu, hju⟩ := mem_peersList.mp h
  exact mem_peersList.mpr ⟨Ne.symm hne, u, hu, hju, hiu⟩

theorem not_self_peer (i : Nat) : i ∉ peersList i := by
  intro h
  exact (mem_peersList.mp h).1 rfl

theorem mem_peers_of_unit {u : List Nat} (hu : u ∈ allUnits) {a b : Nat}
    (ha : a ∈ u) (hb : b ∈ u) (hne : b ≠ a) : b ∈ peersList a :=
  mem_peersList.mpr ⟨hne, u, hu, ha, hb⟩

/-! ## The termination measure `sumT` -/

theorem sumT_set (l : List (List Nat)) (i : Nat) (a : List Nat) (h : i < l.length) :
    sumT (l.set i a) + ((l.getD i []).length - 1) = sumT l + (a.length - 1) := by
  induction l generalizing i with
  | nil => simp at h
  | cons x xs ih =>
    cases i with
    | zero =>
      simp only [List.set_cons_zero, sumT, List.map_cons, List.sum_cons, List.getD_cons_zero]
      omega
    | succ i =>
      have := ih i (by simpa using h)
      simp only [List.set_cons_succ, sumT, List.map_cons, List.sum_cons,
        List.getD_cons_succ] at *
      omega

theorem sumT_set_le {l : List (List Nat)} {i : Nat} {a : List Nat}
    (h : a.length - 1 ≤ (l.getD i []).length - 1) : sumT (l.set i a) ≤ sumT l := by
  by_cases hi : i < l.length
  · have := sumT_set l i a hi
    omega
  · rw [List.set_eq_of_length_le (by omega)]

theorem sumT_set_lt {l : List (List Nat)} {i : Nat} {a : List Nat}
    (h : a.length - 1 < (l.getD i []).length - 1) : sumT (l.set i a) < sumT l := by
  have hi : i < l.length := by
    apply lt_length_of_getD_ne (d := [])
    intro he
    rw [he] at h
    simp at h
  have := sumT_set l i a hi
  omega

/-! ## Small state-update lemmas -/

theorem setCands_values (s : Sudoku) (c : Nat) (l : List Nat) :
    (setCands s c l).values = s.values := rfl

theorem setCands_contra (s : Sudoku) (c : Nat) (l : List Nat) :
    (setCands s c l).has_contradiction = s.has_contradiction := rfl

theorem setCands_length (s : Sudoku) (c : Nat) (l : List Nat) :
    (setCands s c l).candidates.length = s.candidates.length := by
  simp [setCands]

theorem setCands_cnd_self {s : Sudoku} {c : Nat} (l : List Nat)
    (h : c < s.candidates.length) : (setCands s c l).cnd c = l :=
  getD_set_self s.candidates c l [] h

theorem setCands_cnd_ne {s : Sudoku} {c i : Nat} (l : List Nat) (h : c ≠ i) :
    (setCands s c l).cnd i = s.cnd i :=
  getD_set_ne s.candidates l [] h

theorem setCands_of_ge {s : Sudoku} {c : Nat} (l : List Nat)
    (h : s.candidates.length ≤ c) : setCands s c l = s := by
  simp [setCands, List.set_eq_of_length_le h]

theorem setCands_val (s : Sudoku) (c : Nat) (l : List Nat) (i : Nat) :
    (setCands s c l).val i = s.val i := rfl

theorem setValue_candidates (s : Sudoku) (c d : Nat) :
    (setValue s c d).candidates = s.candidates := rfl

theorem setValue_contra (s : Sudoku) (c d : Nat) :
    (setValue s c d).has_contradiction = s.has_contradiction := rfl

theorem setValue_val_self {s : Sudoku} {c : Nat} (d : Nat) (h : c < s.values.length) :
    (setValue s c d).val c = d :=
  getD_set_self s.values c d 0 h

theorem setValue_val_ne {s : Sudoku} {c i : Nat} (d : Nat) (h : c ≠ i) :
    (setValue s c d).val i = s.val i :=
  getD_set_ne s.values d 0 h

theorem cnd_ne_nil_lt {s : Sudoku} {c : Nat} (h : s.cnd c ≠ []) :
    c < s.candidates.length :=
  lt_length_of_getD_ne h

theorem val_ne_zero_lt {s : Sudoku} {c : Nat} (h : s.val c ≠ 0) :
    c < s.values.length :=
  lt_length_of_getD_ne h

theorem length_eq_one_headD {l : List Nat} (h : l.length = 1) : l = [l.headD 0] := by
  cases l with
  | nil => simp at h
  | cons x xs => cases xs with
    | nil => rfl
    | cons y ys => simp at h

theorem cndSub_setCands {s : Sudoku} {c : Nat} {l : List Nat}
    (hl : ∀ x ∈ l, x ∈ s.cnd c) :
    ∀ i x, x ∈ (setCands s c l).cnd i → x ∈ s.cnd i := by
  intro i x hx
  by_cases hic : c = i
  · subst hic
    by_cases hlt : c < s.candidates.length
    · rw [setCands_cnd_self l hlt] at hx
      exact hl x hx
    · rw [setCands_of_ge l (by omega)] at hx
      exact hx
  · rwa [setCands_cnd_ne l hic] at hx

/-! ## Unfolding equations for the cascade step -/

theorem cascStep_rc (rec : CascCall → Option Sudoku) (s : Sudoku) (c d : Nat) :
    cascStep rec (.rc s c d) =
      if (s.cnd c).contains d then
        if ((s.cnd c).filter (· ≠ d)).isEmpty then
          some { setCands s c ((s.cnd c).filter (· ≠ d)) with has_contradiction := true }
        else if ((s.cnd c).filter (· ≠ d)).length = 1 then
          rec (.sd (setCands s c ((s.cnd c).filter (· ≠ d))) c
            (((s.cnd c).filter (· ≠ d)).headD 0))
        else some (setCands s c ((s.cnd c).filter (· ≠ d)))
      else some s := rfl

theorem cascStep_sd (rec : CascCall → Option Sudoku) (s : Sudoku) (c d : Nat) :
    cascStep rec (.sd s c d) =
      rec (.rp (setCands (setValue s c d) c [d]) (peersList c) d) := rfl

theorem cascStep_rp_nil (rec : CascCall → Option Sudoku) (s : Sudoku) (d : Nat) :
    cascStep rec (.rp s [] d) = some s := rfl

theorem cascStep_rp_cons (rec : CascCall → Option Sudoku) (s : Sudoku) (p : Nat)
    (ps : List Nat) (d : Nat) :
    cascStep rec (.rp s (p :: ps) d) =
      match rec (.rc s p d) with
      | none => none
      | some r => if r.has_contradiction then some r else rec (.rp r ps d) := rfl

theorem cascStep_rp_cons_none (rec : CascCall → Option Sudoku) (s : Sudoku) (p : Nat)
    (ps : List Nat) (d : Nat) (h : rec (.rc s p d) = none) :
    cascStep rec (.rp s (p :: ps) d) = none := by
  rw [cascStep_rp_cons, h]

theorem cascStep_rp_cons_some (rec : CascCall → Option Sudoku) (s : Sudoku) (p : Nat)
    (ps : List Nat) (d : Nat) (r1 : Sudoku) (h : rec (.rc s p d) = some r1) :
    cascStep rec (.rp s (p :: ps) d) =
      if r1.has_contradiction then some r1 else rec (.rp r1 ps d) := by
  rw [cascStep_rp_cons, h]

theorem headD_mem {l : List Nat} (h : l ≠ []) : l.headD 0 ∈ l := by
  cases l with
  | nil => exact absurd rfl h
  | cons x xs => exact List.mem_cons_self x xs

/-! ## Fuel-independent basic facts about the cascade

`BasicOut s r` collects facts relating a cascade result `r` to its input
state `s` that hold with no precondition: the contradiction flag is never
reset, the two maps keep their lengths, and the candidate measure never
grows. -/

def BasicOut (s r : Sudoku) : Prop :=
  (s.has_contradiction = true → r.has_contradiction = true) ∧
  r.values.length = s.values.length ∧
  r.candidates.length = s.candidates.length ∧
  sumT r.candidates ≤ sumT s.candidates

theorem basicOut_refl {s : Sudoku} : BasicOut s s :=
  ⟨fun h => h, rfl, rfl, le_refl _⟩

theorem basicOut_trans {s t r : Sudoku} (h1 : BasicOut s t) (h2 : BasicOut t r) :
    BasicOut s r :=
  ⟨fun h => h2.1 (h1.1 h), h2.2.1.trans h1.2.1, h2.2.2.1.trans h1.2.2.1,
    h2.2.2.2.trans h1.2.2.2⟩

/-- `cndSub s r`: every candidate of `r` was already a candidate of `s`
(the cascade only ever removes candidates). -/
def cndSub (s r : Sudoku) : Prop := ∀ i, ∀ x ∈ r.cnd i, x ∈ s.cnd i

theorem cndSub_refl {s : Sudoku} : cndSub s s := fun _ _ hx => hx

theorem cndSub_trans {s t r : Sudoku} (h1 : cndSub s t) (h2 : cndSub t r) :
    cndSub s r := fun i x hx => h1 i x (h2 i x hx)

def BasicRC (n : Nat) : Prop :=
  ∀ s c d r, cascF n (.rc s c d) = some r →
    BasicOut s r ∧ cndSub s r ∧ d ∉ r.cnd c

def BasicSD (n : Nat) : Prop :=
  ∀ s c d r, cascF n (.sd s c d) = some r →
    BasicOut s r ∧ (d ∈ s.cnd c → cndSub s r) ∧
    (r.has_contradiction = false → ∀ j ∈ peersList c, d ∉ r.cnd j)

def BasicRP (n : Nat) : Prop :=
  ∀ s ps d r, cascF n (.rp s ps d) = some r →
    BasicOut s r ∧ cndSub s r ∧
    (r.has_contradiction = false → ∀ j ∈ ps, d ∉ r.cnd j)

theorem casc_basic : ∀ n, BasicRC n ∧ BasicSD n ∧ BasicRP n := by
  intro n
  induction n with
  | zero =>
    refine ⟨?_, ?_, ?_⟩ <;> intro s c' d r h <;> rw [cascF_zero] at h <;> cases h
  | succ n ih =>
    obtain ⟨ihrc, ihsd, ihrp⟩ := ih
    have hrc : BasicRC (n + 1) := by
      intro s c d r h
      rw [cascF_succ, cascStep_rc] at h
      by_cases hin : (s.cnd c).contains d
      case neg =>
        rw [if_neg hin] at h
        obtain rfl : s = r := Option.some.inj h
        exact ⟨basicOut_refl, cndSub_refl, fun hmem => hin (List.elem_iff.mpr hmem)⟩
      case pos =>
        rw [if_pos hin] at h
        have hmem : d ∈ s.cnd c := List.elem_iff.mp hin
        have hclt : c < s.candidates.length :=
          cnd_ne_nil_lt (fun he => by rw [he] at hmem; cases hmem)
        set l := (s.cnd c).filter (· ≠ d) with hldef
        set s1 := setCands s c l with hs1def
        have hfsub : ∀ x ∈ l, x ∈ s.cnd c := fun x hx => List.mem_of_mem_filter hx
        have hfne : d ∉ l := by
          intro hd
          have := List.of_mem_filter hd
          simp at this
        have hcnds1 : s1.cnd c = l := setCands_cnd_self _ hclt
        have hsub1 : cndSub s s1 := cndSub_setCands hfsub
        have hsum1 : sumT s1.candidates ≤ sumT s.candidates := by
          apply sumT_set_le
          have h1 : l.length ≤ (s.cnd c).length := List.length_filter_le _ _
          have hcndeq : s.candidates.getD c [] = s.cnd c := rfl
          rw [hcndeq]
          omega
        have hbo1 : BasicOut s s1 :=
          ⟨fun hc => hc, rfl, setCands_length s c l, hsum1⟩
        split at h
        next hemp =>
          obtain rfl := (Option.some.inj h).symm
          refine ⟨⟨fun _ => rfl, hbo1.2.1, hbo1.2.2.1, hsum1⟩, hsub1, ?_⟩
          show d ∉ s1.cnd c
          rw [hcnds1]
          exact hfne
        next hemp =>
          split at h
          next hlen1 =>
            obtain ⟨hbo, hcsub, _⟩ := ihsd _ _ _ _ h
            have hhead : l.headD 0 ∈ s1.cnd c := by
              rw [hcnds1]
              exact headD_mem (by intro he; rw [he] at hlen1; simp at hlen1)
            have hsub : cndSub s r := cndSub_trans hsub1 (hcsub hhead)
            refine ⟨basicOut_trans hbo1 hbo, hsub, ?_⟩
            intro hd
            have := hcsub hhead c _ hd
            rw [hcnds1] at this
            exact hfne this
          next hlen1 =>
            obtain rfl := (Option.some.inj h).symm
            refine ⟨hbo1, hsub1, ?_⟩
            show d ∉ s1.cnd c
            rw [hcnds1]
            exact hfne
    have hrp : BasicRP (n + 1) := by
      intro s ps d r h
      rw [cascF_succ] at h
      cases ps with
      | nil =>
        rw [cascStep_rp_nil] at h
        obtain rfl : s = r := Option.some.inj h
        exact ⟨basicOut_refl, cndSub_refl, fun _ j hj => absurd hj (List.not_mem_nil j)⟩
      | cons p ps =>
        rcases hrc1 : cascF n (.rc s p d) with _ | r1
        · rw [cascStep_rp_cons_none _ _ _ _ _ hrc1] at h
          cases h
        · rw [cascStep_rp_cons_some _ _ _ _ _ _ hrc1] at h
          obtain ⟨hbo1, hsub1, hnp⟩ := ihrc _ _ _ _ hrc1
          split at h
          next hcontra =>
            obtain rfl : r1 = r := Option.some.inj h
            refine ⟨hbo1, hsub1, ?_⟩
            intro hfree
            rw [hcontra] at hfree
            cases hfree
          next hcontra =>
            obtain ⟨hbo2, hsub2, hpost⟩ := ihrp _ _ _ _ h
            refine ⟨basicOut_trans hbo1 hbo2, cndSub_trans hsub1 hsub2, ?_⟩
            intro hfree j hj
            rcases List.mem_cons.mp hj with rfl | hj'
            · intro hd
              exact hnp (hsub2 j d hd)
            · exact hpost hfree j hj'
    have hsd : BasicSD (n + 1) := by
      intro s c d r h
      rw [cascF_succ, cascStep_sd] at h
      obtain ⟨hbo, hsub, hpost⟩ := ihrp _ _ _ _ h
      set s1 := setCands (setValue s c d) c [d] with hs1
      have hbo1 : BasicOut s s1 := by
        refine ⟨fun hc => hc, by simp [hs1, setCands, setValue], ?_, ?_⟩
        · simp [hs1, setCands, setValue]
        · apply sumT_set_le
          simp
      refine ⟨basicOut_trans hbo1 hbo, ?_, hpost⟩
      intro hd
      have hsub1 : cndSub s s1 := by
        intro i x hx
        by_cases hic : c = i
        · subst hic
          by_cases hlt : c < s.candidates.length
          · have hc1 : s1.cnd c = [d] :=
              setCands_cnd_self _ (by simpa [setValue] using hlt)
            rw [hc1] at hx
            obtain rfl : x = d := List.mem_singleton.mp hx
            exact hd
          · have he : s1 = setValue s c d :=
              setCands_of_ge _ (by simpa [setValue] using hlt)
            rw [he] at hx
            exact hx
        · rw [setCands_cnd_ne _ hic] at hx
          exact hx
      exact cndSub_trans hsub1 hsub
    exact ⟨hrc, hsd, hrp⟩

/-! ## The canonical fuel is sufficient -/

theorem peersList_nodup (c : Nat) : (peersList c).Nodup :=
  (List.nodup_dedup _).filter _

theorem peersList_subset_range (c : Nat) : ∀ j ∈ peersList c, j ∈ List.range 81 :=
  fun _ hj => List.mem_range.mpr (peers_lt hj)

theorem peersList_length_le (c : Nat) : (peersList c).length ≤ 243 := by
  have h1 : (peersList c).length ≤ 81 := by
    have hcard : (peersList c).toFinset.card = (peersList c).length :=
      List.toFinset_card_of_nodup (peersList_nodup c)
    have hsub : (peersList c).toFinset ⊆ (List.range 81).toFinset := by
      intro j hj
      exact List.mem_toFinset.mpr (peersList_subset_range c j (List.mem_toFinset.mp hj))
    have hle := Finset.card_le_card hsub
    have hr : (List.range 81).toFinset.card ≤ (List.range 81).length :=
      List.toFinset_card_le _
    simp only [List.length_range] at hr
    omega
  omega

/-- When the candidate list at `c` contains `d` and filtering `d` out leaves
a single candidate, the measure drops strictly at the collapse. -/
theorem sumT_collapse_lt {s : Sudoku} {c d : Nat} (hmem : d ∈ s.cnd c)
    (hlen1 : ((s.cnd c).filter (· ≠ d)).length = 1) :
    sumT (setCands s c ((s.cnd c).filter (· ≠ d))).candidates < sumT s.candidates := by
  apply sumT_set_lt
  have hlt : ((s.cnd c).filter (· ≠ d)).length < (s.cnd c).length := by
    apply List.length_filter_lt_length_iff_exists.mpr
    exact ⟨d, hmem, by simp⟩
  have hcndeq : s.candidates.getD c [] = s.cnd c := rfl
  rw [hcndeq]
  omega

def AdqRC (n : Nat) : Prop :=
  ∀ s c d, 245 * sumT s.candidates + 1 ≤ n → ∃ r, cascF n (.rc s c d) = some r

def AdqSD (n : Nat) : Prop :=
  ∀ s c d, 245 * sumT s.candidates + 245 ≤ n → ∃ r, cascF n (.sd s c d) = some r

def AdqRP (n : Nat) : Prop :=
  ∀ s ps d, ps.length ≤ 243 → 245 * sumT s.candidates + ps.length + 1 ≤ n →
    ∃ r, cascF n (.rp s ps d) = some r

theorem casc_adequate : ∀ n, AdqRC n ∧ AdqSD n ∧ AdqRP n := by
  intro n
  induction n with
  | zero =>
    refine ⟨?_, ?_, ?_⟩
    · intro s c d hn; omega
    · intro s c d hn; omega
    · intro s ps d hlen hn; omega
  | succ n ih =>
    obtain ⟨ihrc, ihsd, ihrp⟩ := ih
    have hrc : AdqRC (n + 1) := by
      intro s c d hn
      rw [cascF_succ, cascStep_rc]
      by_cases hin : (s.cnd c).contains d
      case neg => rw [if_neg hin]; exact ⟨s, rfl⟩
      case pos =>
        rw [if_pos hin]
        have hmem : d ∈ s.cnd c := List.elem_iff.mp hin
        by_cases hemp : ((s.cnd c).filter (· ≠ d)).isEmpty
        · rw [if_pos hemp]; exact ⟨_, rfl⟩
        · rw [if_neg hemp]
          by_cases hlen1 : ((s.cnd c).filter (· ≠ d)).length = 1
          · rw [if_pos hlen1]
            apply ihsd
            have := sumT_collapse_lt hmem hlen1
            omega
          · rw [if_neg hlen1]; exact ⟨_, rfl⟩
    have hsd : AdqSD (n + 1) := by
      intro s c d hn
      rw [cascF_succ, cascStep_sd]
      apply ihrp
      · exact peersList_length_le c
      · have h1 : sumT (setCands (setValue s c d) c [d]).candidates ≤ sumT s.candidates := by
          apply sumT_set_le
          simp
        have h2 := peersList_length_le c
        omega
    have hrp : AdqRP (n + 1) := by
      intro s ps d hlen hn
      cases ps with
      | nil => exact ⟨s, by rw [cascF_succ, cascStep_rp_nil]⟩
      | cons p ps =>
        obtain ⟨r1, hr1⟩ : ∃ r1, cascF n (.rc s p d) = some r1 := by
          apply ihrc
          simp only [List.length_cons] at hn
          omega
        rw [cascF_succ, cascStep_rp_cons_some _ _ _ _ _ _ hr1]
        by_cases hcon : r1.has_contradiction
        · rw [if_pos hcon]; exact ⟨r1, rfl⟩
        · rw [if_neg hcon]
          apply ihrp
          · simp only [List.length_cons] at hlen; omega
          · have hT : sumT r1.candidates ≤ sumT s.candidates :=
              ((casc_basic n).1 _ _ _ _ hr1).1.2.2.2
            simp only [List.length_cons] at hn
            omega
    exact ⟨hrc, hsd, hrp⟩

/-! ## The result does not depend on the fuel, once sufficient -/

def FiRC (n : Nat) : Prop :=
  ∀ m s c d, n ≤ m → 245 * sumT s.candidates + 1 ≤ n →
    cascF n (.rc s c d) = cascF m (.rc s c d)

def FiSD (n : Nat) : Prop :=
  ∀ m s c d, n ≤ m → 245 * sumT s.candidates + 245 ≤ n →
    cascF n (.sd s c d) = cascF m (.sd s c d)

def FiRP (n : Nat) : Prop :=
  ∀ m s ps d, n ≤ m → ps.length ≤ 243 → 245 * sumT s.candidates + ps.length + 1 ≤ n →
    cascF n (.rp s ps d) = cascF m (.rp s ps d)

theorem casc_fuel_irrel : ∀ n, FiRC n ∧ FiSD n ∧ FiRP n := by
  intro n
  induction n with
  | zero =>
    refine ⟨?_, ?_, ?_⟩
    · intro m s c d hm hn; omega
    · intro m s c d hm hn; omega
    · intro m s ps d hm hlen hn; omega
  | succ n ih =>
    obtain ⟨ihrc, ihsd, ihrp⟩ := ih
    have hrc : FiRC (n + 1) := by
      intro m s c d hm hn
      obtain ⟨m', rfl⟩ : ∃ m', m = m' + 1 := ⟨m - 1, by omega⟩
      rw [cascF_succ, cascF_succ, cascStep_rc, cascStep_rc]
      by_cases hin : (s.cnd c).contains d
      case neg => rw [if_neg hin, if_neg hin]
      case pos =>
        rw [if_pos hin, if_pos hin]
        have hmem : d ∈ s.cnd c := List.elem_iff.mp hin
        by_cases hemp : ((s.cnd c).filter (· ≠ d)).isEmpty
        · rw [if_pos hemp, if_pos hemp]
        · rw [if_neg hemp, if_neg hemp]
          by_cases hlen1 : ((s.cnd c).filter (· ≠ d)).length = 1
          · rw [if_pos hlen1, if_pos hlen1]
            apply ihsd
            · omega
            · have := sumT_collapse_lt hmem hlen1
              omega
          · rw [if_neg hlen1, if_neg hlen1]
    have hsd : FiSD (n + 1) := by
      intro m s c d hm hn
      obtain ⟨m', rfl⟩ : ∃ m', m = m' + 1 := ⟨m - 1, by omega⟩
      rw [cascF_succ, cascF_succ, cascStep_sd, cascStep_sd]
      apply ihrp
      · omega
      · exact peersList_length_le c
      · have h1 : sumT (setCands (setValue s c d) c [d]).candidates ≤ sumT s.candidates := by
          apply sumT_set_le
          simp
        have h2 := peersList_length_le c
        omega
    have hrp : FiRP (n + 1) := by
      intro m s ps d hm hlen hn
      obtain ⟨m', rfl⟩ : ∃ m', m = m' + 1 := ⟨m - 1, by omega⟩
      cases ps with
      | nil => rw [cascF_succ, cascF_succ, cascStep_rp_nil, cascStep_rp_nil]
      | cons p ps =>
        simp only [List.length_cons] at hlen hn
        have hrceq : cascF n (.rc s p d) = cascF m' (.rc s p d) := by
          apply ihrc
          · omega
          · omega
        obtain ⟨r1, hr1⟩ : ∃ r1, cascF n (.rc s p d) = some r1 := by
          apply (casc_adequate n).1
          omega
        have hr1' : cascF m' (.rc s p d) = some r1 := by rw [← hrceq]; exact hr1
        rw [cascF_succ, cascF_succ, cascStep_rp_cons_some _ _ _ _ _ _ hr1,
          cascStep_rp_cons_some _ _ _ _ _ _ hr1']
        by_cases hcon : r1.has_contradiction
        · rw [if_pos hcon, if_pos hcon]
        · rw [if_neg hcon, if_neg hcon]
          apply ihrp
          · omega
          · omega
          · have hT : sumT r1.candidates ≤ sumT s.candidates :=
              ((casc_basic n).1 _ _ _ _ hr1).1.2.2.2
            omega
    exact ⟨hrc, hsd, hrp⟩

theorem removeCandidate_some (s : Sudoku) (c d : Nat) :
    cascF (245 * sumT s.candidates + 1) (.rc s c d) = some (removeCandidate s c d) := by
  obtain ⟨r, hr⟩ := (casc_adequate (245 * sumT s.candidates + 1)).1 s c d (le_refl _)
  rw [hr, removeCandidate, hr]
  rfl

theorem setDigit_some (s : Sudoku) (c d : Nat) :
    cascF (245 * sumT s.candidates + 245) (.sd s c d) = some (setDigit s c d) := by
  obtain ⟨r, hr⟩ := (casc_adequate (245 * sumT s.candidates + 245)).2.1 s c d (le_refl _)
  rw [hr, setDigit, hr]
  rfl

/-- C5 (supporting form): with fuel at least a bound computed from the total
candidate count, the instrumented mutual recursion of `remove_candidate` and
`set_digit` completes (never `none`), with a fuel-independent result: the
cascade terminates on every board. -/
theorem cascade_terminates (s : Sudoku) (c d n : Nat) :
    (245 * sumT s.candidates + 1 ≤ n →
      cascF n (.rc s c d) = some (removeCandidate s c d)) ∧
    (245 * sumT s.candidates + 245 ≤ n →
      cascF n (.sd s c d) = some (setDigit s c d)) := by
  constructor
  · intro hn
    rw [← (casc_fuel_irrel (245 * sumT s.candidates + 1)).1 n s c d hn (le_refl _)]
    exact removeCandidate_some s c d
  · intro hn
    rw [← (casc_fuel_irrel (245 * sumT s.candidates + 245)).2.1 n s c d hn (le_refl _)]
    exact setDigit_some s c d

/-! ## Preservation of the filled-cell/singleton-candidates invariant

`Apre s` is the invariant of claim C7 (plus the length agreement of the two
maps, which the construction establishes and every operation preserves):
on a contradiction-free state, every filled coordinate has exactly its own
value as candidate list. -/

def Apre (s : Sudoku) : Prop :=
  s.candidates.length = s.values.length ∧
  ∀ i, s.val i ≠ 0 → s.cnd i = [s.val i]

def ApreRC (n : Nat) : Prop :=
  ∀ s c d r, cascF n (.rc s c d) = some r → Apre s →
    r.has_contradiction = false → Apre r

def ApreSD (n : Nat) : Prop :=
  ∀ s c d r, cascF n (.sd s c d) = some r → Apre s →
    r.has_contradiction = false → Apre r

def ApreRP (n : Nat) : Prop :=
  ∀ s ps d r, cascF n (.rp s ps d) = some r → Apre s →
    r.has_contradiction = false → Apre r

theorem casc_apre : ∀ n, ApreRC n ∧ ApreSD n ∧ ApreRP n := by
  intro n
  induction n with
  | zero =>
    refine ⟨?_, ?_, ?_⟩ <;> intro s c' d r h <;> rw [cascF_zero] at h <;> cases h
  | succ n ih =>
    obtain ⟨ihrc, ihsd, ihrp⟩ := ih
    have hrc : ApreRC (n + 1) := by
      intro s c d r h hA hfree
      rw [cascF_succ, cascStep_rc] at h
      by_cases hin : (s.cnd c).contains d
      case neg =>
        rw [if_neg hin] at h
        obtain rfl : s = r := Option.some.inj h
        exact hA
      case pos =>
        rw [if_pos hin] at h
        have hmem : d ∈ s.cnd c := List.elem_iff.mp hin
        have hclt : c < s.candidates.length :=
          cnd_ne_nil_lt (fun he => by rw [he] at hmem; cases hmem)
        set l := (s.cnd c).filter (· ≠ d) with hldef
        set s1 := setCands s c l with hs1def
        have hA1big : ¬ l.isEmpty → Apre s1 := by
          intro hemp
          constructor
          · rw [hs1def]
            rw [setCands_length]
            exact hA.1
          · intro i hi
            by_cases hic : c = i
            · subst hic
              exfalso
              by_cases hv : s.val c = 0
              · rw [hs1def, setCands_val] at hi
                exact hi hv
              · have hsing := hA.2 c hv
                have : l = [] := by
                  rw [hldef, hsing]
                  have hd : d = s.val c := by
                    rw [hsing] at hmem
                    exact (List.mem_singleton.mp hmem)
                  simp [hd]
                rw [this] at hemp
                simp at hemp
            · rw [hs1def, setCands_cnd_ne _ hic]
              rw [hs1def, setCands_val] at hi
              exact hA.2 i hi
        split at h
        next hemp =>
          exfalso
          obtain rfl := (Option.some.inj h).symm
          simp at hfree
        next hemp =>
          split at h
          next hlen1 =>
            exact ihsd _ _ _ _ h (hA1big (by simpa using hemp)) hfree
          next hlen1 =>
            obtain rfl := (Option.some.inj h).symm
            exact hA1big (by simpa using hemp)
    have hrp : ApreRP (n + 1) := by
      intro s ps d r h hA hfree
      cases ps with
      | nil =>
        rw [cascF_succ, cascStep_rp_nil] at h
        obtain rfl : s = r := Option.some.inj h
        exact hA
      | cons p ps =>
        rw [cascF_succ] at h
        rcases hrc1 : cascF n (.rc s p d) with _ | r1
        · rw [cascStep_rp_cons_none _ _ _ _ _ hrc1] at h
          cases h
        · rw [cascStep_rp_cons_some _ _ _ _ _ _ hrc1] at h
          split at h
          next hcontra =>
            obtain rfl : r1 = r := Option.some.inj h
            rw [hcontra] at hfree
            cases hfree
          next hcontra =>
            have hA1 : Apre r1 :=
              ihrc _ _ _ _ hrc1 hA (by simpa using hcontra)
            exact ihrp _ _ _ _ h hA1 hfree
    have hsd : ApreSD (n + 1) := by
      intro s c d r h hA hfree
      rw [cascF_succ, cascStep_sd] at h
      set s1 := setCands (setValue s c d) c [d] with hs1def
      have hA1 : Apre s1 := by
        constructor
        · rw [hs1def, setCands_length]
          show (setValue s c d).candidates.length = (s.values.set c d).length
          rw [setValue_candidates]
          simpa using hA.1
        · intro i hi
          by_cases hic : c = i
          · subst hic
            by_cases hlt : c < s.values.length
            · rw [hs1def]
              exact (setCands_cnd_self _ (by
                show c < (setValue s c d).candidates.length
                rw [setValue_candidates, hA.1]
                exact hlt)).trans (by
                  have : s1.val c = d := by
                    rw [hs1def, setCands_val, setValue_val_self d hlt]
                  rw [hs1def] at this
                  rw [this])
            · exfalso
              have h1 : (setValue s c d).values = s.values.set c d := rfl
              have h2 : s1.val c = s.val c := by
                rw [hs1def, setCands_val, setValue, Sudoku.val]
                show (s.values.set c d).getD c 0 = s.values.getD c 0
                rw [List.set_eq_of_length_le (by omega)]
              rw [h2] at hi
              have : c < s.values.length := val_ne_zero_lt hi
              omega
          · rw [hs1def, setCands_cnd_ne _ hic]
            rw [hs1def, setCands_val, setValue_val_ne d hic] at hi
            show (setValue s c d).cnd i = _
            have : (setValue s c d).cnd i = s.cnd i := rfl
            rw [this, hA.2 i hi]
            show _ = [s1.val i]
            rw [hs1def, setCands_val, setValue_val_ne d hic]
      exact ihrp _ _ _ _ h hA1 hfree
    exact ⟨hrc, hsd, hrp⟩

/-! ## Reachable board states -/

theorem setDigit_contra_mono (s : Sudoku) (c d : Nat)
    (h : s.has_contradiction = true) : (setDigit s c d).has_contradiction = true :=
  ((casc_basic _).2.1 _ _ _ _ (setDigit_some s c d)).1.1 h

theorem removeCandidate_contra_mono (s : Sudoku) (c d : Nat)
    (h : s.has_contradiction = true) : (removeCandidate s c d).has_contradiction = true :=
  ((casc_basic _).1 _ _ _ _ (removeCandidate_some s c d)).1.1 h

theorem setDigit_apre (s : Sudoku) (c d : Nat) (hA : Apre s)
    (hfree : (setDigit s c d).has_contradiction = false) : Apre (setDigit s c d) :=
  (casc_apre _).2.1 _ _ _ _ (setDigit_some s c d) hA hfree

theorem removeCandidate_apre (s : Sudoku) (c d : Nat) (hA : Apre s)
    (hfree : (removeCandidate s c d).has_contradiction = false) :
    Apre (removeCandidate s c d) :=
  (casc_apre _).1 _ _ _ _ (removeCandidate_some s c d) hA hfree

theorem copySud_values (s : Sudoku) : (copySud s).values = s.values := rfl

theorem copySud_candidates (s : Sudoku) : (copySud s).candidates = s.candidates := rfl

theorem copySud_contra (s : Sudoku) : (copySud s).has_contradiction = false := rfl

theorem copySud_apre {s : Sudoku} (h : Apre s) : Apre (copySud s) := h

theorem mkSudoku_values (v : List Nat) : (mkSudoku v).values = v := rfl

theorem mkSudoku_candidates (v : List Nat) : (mkSudoku v).candidates = candidateDict v := rfl

theorem mkSudoku_contra (v : List Nat) : (mkSudoku v).has_contradiction = false := rfl

theorem mkSudoku_cnd {v : List Nat} {i : Nat} (h : i < 81) :
    (mkSudoku v).cnd i = getCandidatesOf v i :=
  getD_map_range _ _ h

theorem mkSudoku_cnd_filled {v : List Nat} {i : Nat} (h81 : i < 81)
    (h : v.getD i 0 ≠ 0) : (mkSudoku v).cnd i = [v.getD i 0] := by
  rw [mkSudoku_cnd h81]
  have heq : getCandidatesOf v i =
      if v.getD i 0 ≠ 0 then [v.getD i 0]
      else (List.range' 1 9).filter
        fun n => ¬ ((peersList i).map fun p => v.getD p 0).contains n := rfl
  rw [heq, if_pos h]

theorem mkSudoku_apre (v : List Nat) (hlen : v.length = 81) : Apre (mkSudoku v) := by
  constructor
  · show (candidateDict v).length = v.length
    simp [candidateDict, hlen]
  · intro i hi
    have hlt : i < 81 := by
      have := val_ne_zero_lt hi
      rw [mkSudoku_values] at this
      omega
    exact mkSudoku_cnd_filled hlt hi

/-- Board states reachable from an initial grid by the operations of the
`Sudoku` class.  Digits are bounded by 9 because the embedding identifies a
candidate string with its digit list, which is faithful only for one-character
digits; `copy` carries the flag `has_contradiction = false` because that is
the only situation in which the solver ever clones a board. -/
inductive Reachable : Sudoku → Prop where
  | base (v : List Nat) (hlen : v.length = 81) (hv : ∀ x ∈ v, x ≤ 9) :
      Reachable (mkSudoku v)
  | set (s : Sudoku) (c d : Nat) (hd : d ≤ 9) (hs : Reachable s) :
      Reachable (setDigit s c d)
  | remove (s : Sudoku) (c d : Nat) (hd : d ≤ 9) (hs : Reachable s) :
      Reachable (removeCandidate s c d)
  | copy (s : Sudoku) (hfree : s.has_contradiction = false) (hs : Reachable s) :
      Reachable (copySud s)

theorem reachable_apre {s : Sudoku} (hr : Reachable s)
    (hfree : s.has_contradiction = false) : Apre s := by
  induction hr with
  | base v hlen hv => exact mkSudoku_apre v hlen
  | set s c d hd hs ih =>
    have hsfree : s.has_contradiction = false := by
      by_contra hc
      simp only [Bool.not_eq_false] at hc
      rw [setDigit_contra_mono s c d hc] at hfree
      cases hfree
    exact setDigit_apre s c d (ih hsfree) hfree
  | remove s c d hd hs ih =>
    have hsfree : s.has_contradiction = false := by
      by_contra hc
      simp only [Bool.not_eq_false] at hc
      rw [removeCandidate_contra_mono s c d hc] at hfree
      cases hfree
    exact removeCandidate_apre s c d (ih hsfree) hfree
  | copy s hf hs ih => exact copySud_apre (ih hf)

/-! ## The solver invariant

`GoodW W s` is the well-formedness invariant used to prove soundness of the
solver: both maps have length 81, a filled square's candidate list is the
singleton of its value, all candidates are digits 1..9, and the value of a
filled square has been removed from the candidates of all its peers - except
possibly for squares in the exemption set `W`, which is used while a
`set_digit` cascade is still clearing the peers of the square it just set. -/

def GoodW (W : Nat → Prop) (s : Sudoku) : Prop :=
  s.values.length = 81 ∧ s.candidates.length = 81 ∧
  (∀ i, s.val i ≠ 0 → s.cnd i = [s.val i]) ∧
  (∀ i, ∀ x ∈ s.cnd i, 1 ≤ x ∧ x ≤ 9) ∧
  (∀ i, s.val i ≠ 0 → ¬ W i → ∀ j ∈ peersList i, s.val i ∉ s.cnd j)

/-- `vmono s r`: no filled square ever changes its value. -/
def vmono (s r : Sudoku) : Prop := ∀ i, s.val i ≠ 0 → r.val i = s.val i

theorem vmono_refl {s : Sudoku} : vmono s s := fun _ _ => rfl

theorem vmono_trans {s t r : Sudoku} (h1 : vmono s t) (h2 : vmono t r) : vmono s r :=
  fun i hi => ((h2 i (by rw [h1 i hi]; exact hi)).trans (h1 i hi))

def GoodRC (n : Nat) : Prop :=
  ∀ (W : Nat → Prop) s c d r, cascF n (.rc s c d) = some r → GoodW W s →
    r.has_contradiction = false → GoodW W r ∧ vmono s r

def GoodSD (n : Nat) : Prop :=
  ∀ (W : Nat → Prop) s c d r, cascF n (.sd s c d) = some r → GoodW W s →
    s.val c = 0 → d ∈ s.cnd c → r.has_contradiction = false →
    GoodW W r ∧ vmono s r ∧ r.val c = d

def GoodRP (n : Nat) : Prop :=
  ∀ (W : Nat → Prop) s ps d r, cascF n (.rp s ps d) = some r → GoodW W s →
    r.has_contradiction = false → GoodW W r ∧ vmono s r

theorem casc_good : ∀ n, GoodRC n ∧ GoodSD n ∧ GoodRP n := by
  intro n
  induction n with
  | zero =>
    refine ⟨?_, ?_, ?_⟩ <;> intro W s c' d r h <;> rw [cascF_zero] at h <;> cases h
  | succ n ih =>
    obtain ⟨ihrc, ihsd, ihrp⟩ := ih
    have hrc : GoodRC (n + 1) := by
      intro W s c d r h hG hfree
      rw [cascF_succ, cascStep_rc] at h
      by_cases hin : (s.cnd c).contains d
      case neg =>
        rw [if_neg hin] at h
        obtain rfl : s = r := Option.some.inj h
        exact ⟨hG, vmono_refl⟩
      case pos =>
        rw [if_pos hin] at h
        have hmem : d ∈ s.cnd c := List.elem_iff.mp hin
        have hclt : c < s.candidates.length :=
          cnd_ne_nil_lt (fun he => by rw [he] at hmem; cases hmem)
        set l := (s.cnd c).filter (· ≠ d) with hldef
        set s1 := setCands s c l with hs1def
        have hcnds1 : s1.cnd c = l := setCands_cnd_self _ hclt
        have hvals1 : ∀ i, s1.val i = s.val i := fun i => rfl
        have hsub1 : cndSub s s1 := cndSub_setCands (fun x hx => List.mem_of_mem_filter hx)
        split at h
        next hemp =>
          exfalso
          obtain rfl := (Option.some.inj h).symm
          simp at hfree
        next hemp =>
          have hval0 : s.val c = 0 := by
            by_contra hv
            have hsing := hG.2.2.1 c hv
            have hdv : d = s.val c := by
              rw [hsing] at hmem
              exact List.mem_singleton.mp hmem
            have : l = [] := by
              rw [hldef, hsing, hdv]
              simp
            rw [this] at hemp
            simp at hemp
          have hG1 : GoodW W s1 := by
            refine ⟨hG.1, by rw [hs1def, setCands_length]; exact hG.2.1, ?_, ?_, ?_⟩
            · intro i hi
              rw [hvals1] at hi
              by_cases hic : c = i
              · subst hic; exact absurd hi (by rw [hval0]; exact fun hh => hh rfl)
              · rw [hvals1, hs1def, setCands_cnd_ne _ hic]
                exact hG.2.2.1 i hi
            · intro i x hx
              exact hG.2.2.2.1 i x (hsub1 i x hx)
            · intro i hi hW j hj
              rw [hvals1] at hi
              rw [hvals1]
              intro hmem2
              exact hG.2.2.2.2 i hi hW j hj (hsub1 j _ hmem2)
          split at h
          next hlen1 =>
            have hhead : l.headD 0 ∈ s1.cnd c := by
              rw [hcnds1]
              exact headD_mem (by intro he; rw [he] at hlen1; simp at hlen1)
            have hval1c : s1.val c = 0 := by rw [hvals1]; exact hval0
            obtain ⟨hGr, hvm, -⟩ := ihsd W _ _ _ _ h hG1 hval1c hhead hfree
            refine ⟨hGr, ?_⟩
            exact vmono_trans (fun i hi => rfl) hvm
          next hlen1 =>
            obtain rfl := (Option.some.inj h).symm
            exact ⟨hG1, fun i hi => rfl⟩
    have hrp : GoodRP (n + 1) := by
      intro W s ps d r h hG hfree
      cases ps with
      | nil =>
        rw [cascF_succ, cascStep_rp_nil] at h
        obtain rfl : s = r := Option.some.inj h
        exact ⟨hG, vmono_refl⟩
      | cons p ps =>
        rw [cascF_succ] at h
        rcases hrc1 : cascF n (.rc s p d) with _ | r1
        · rw [cascStep_rp_cons_none _ _ _ _ _ hrc1] at h
          cases h
        · rw [cascStep_rp_cons_some _ _ _ _ _ _ hrc1] at h
          split at h
          next hcontra =>
            obtain rfl : r1 = r := Option.some.inj h
            rw [hcontra] at hfree
            cases hfree
          next hcontra =>
            obtain ⟨hG1, hvm1⟩ :=
              ihrc W _ _ _ _ hrc1 hG (by simpa using hcontra)
            obtain ⟨hG2, hvm2⟩ := ihrp W _ _ _ _ h hG1 hfree
            exact ⟨hG2, vmono_trans hvm1 hvm2⟩
    have hsd : GoodSD (n + 1) := by
      intro W s c d r h hG hv0 hd hfree
      rw [cascF_succ, cascStep_sd] at h
      set s1 := setCands (setValue s c d) c [d] with hs1def
      have hc81 : c < 81 := by
        have h1 : c < s.candidates.length :=
          cnd_ne_nil_lt (fun he => by rw [he] at hd; cases hd)
        have h2 := hG.2.1
        omega
      have hd19 : 1 ≤ d ∧ d ≤ 9 := hG.2.2.2.1 c d hd
      have hvlen : (setValue s c d).values.length = 81 := by
        show (s.values.set c d).length = 81
        simp [hG.1]
      have hclen : (setValue s c d).candidates.length = 81 := hG.2.1
      have hval1c : s1.val c = d := by
        rw [hs1def, setCands_val]
        exact setValue_val_self d (by rw [hG.1]; exact hc81)
      have hval1ne : ∀ i, c ≠ i → s1.val i = s.val i := by
        intro i hic
        rw [hs1def, setCands_val, setValue_val_ne d hic]
      have hcnd1c : s1.cnd c = [d] := by
        rw [hs1def]
        exact setCands_cnd_self _ (by rw [hclen]; exact hc81)
      have hcnd1ne : ∀ i, c ≠ i → s1.cnd i = s.cnd i := by
        intro i hic
        rw [hs1def, setCands_cnd_ne _ hic]
        rfl
      have hG1 : GoodW (fun i => W i ∨ i = c) s1 := by
        refine ⟨by rw [hs1def]; exact hvlen, by rw [hs1def, setCands_length]; exact hclen,
          ?_, ?_, ?_⟩
        · intro i hi
          by_cases hic : c = i
          · subst hic; rw [hval1c, hcnd1c]
          · rw [hval1ne i hic, hcnd1ne i hic]
            rw [hval1ne i hic] at hi
            exact hG.2.2.1 i hi
        · intro i x hx
          by_cases hic : c = i
          · subst hic
            rw [hcnd1c] at hx
            obtain rfl : x = d := List.mem_singleton.mp hx
            exact hd19
          · rw [hcnd1ne i hic] at hx
            exact hG.2.2.2.1 i x hx
        · intro i hi hW j hj
          have hWi : ¬ W i := fun hw => hW (Or.inl hw)
          have hic : i ≠ c := fun hh => hW (Or.inr hh)
          rw [hval1ne i (fun hh => hic hh.symm)] at hi ⊢
          intro hmem2
          apply hG.2.2.2.2 i hi hWi j hj
          by_cases hjc : c = j
          · subst hjc
            rw [hcnd1c] at hmem2
            obtain rfl := List.mem_singleton.mp hmem2
            exact hd
          · rw [hcnd1ne j hjc] at hmem2
            exact hmem2
      obtain ⟨hGr, hvm⟩ := ihrp _ _ _ _ _ h hG1 hfree
      have hpost : ∀ j ∈ peersList c, d ∉ r.cnd j :=
        ((casc_basic n).2.2 _ _ _ _ h).2.2 hfree
      have hvalrc : r.val c = d := by
        rw [hvm c (by rw [hval1c]; omega), hval1c]
      have hvmsr : vmono s r := by
        apply vmono_trans (t := s1) _ hvm
        intro i hi
        by_cases hic : c = i
        · subst hic; exact absurd hi (by rw [hv0]; exact fun hh => hh rfl)
        · exact hval1ne i hic
      refine ⟨⟨hGr.1, hGr.2.1, hGr.2.2.1, hGr.2.2.2.1, ?_⟩, hvmsr, hvalrc⟩
      intro i hi hW j hj
      by_cases hic : i = c
      · subst hic
        rw [hvalrc]
        exact hpost j hj
      · exact hGr.2.2.2.2 i hi (by simp [hW, hic]) j hj
    exact ⟨hrc, hsd, hrp⟩

/-! ## Wrapper-level invariant lemmas and the initial state -/

/-- The invariant with no exemptions: what holds between operations. -/
def Good (s : Sudoku) : Prop := GoodW (fun _ => False) s

theorem setDigit_good {s : Sudoku} {c d : Nat} (hG : Good s) (h0 : s.val c = 0)
    (hd : d ∈ s.cnd c) (hfree : (setDigit s c d).has_contradiction = false) :
    Good (setDigit s c d) ∧ vmono s (setDigit s c d) ∧ (setDigit s c d).val c = d :=
  (casc_good _).2.1 _ _ _ _ _ (setDigit_some s c d) hG h0 hd hfree

theorem copySud_good {s : Sudoku} (h : Good s) : Good (copySud s) := h

theorem copySud_val (s : Sudoku) (i : Nat) : (copySud s).val i = s.val i := rfl

theorem copySud_cnd (s : Sudoku) (i : Nat) : (copySud s).cnd i = s.cnd i := rfl

theorem mem_range'_1_9 {x : Nat} (h : x ∈ List.range' 1 9) : 1 ≤ x ∧ x ≤ 9 := by
  rw [List.mem_range'_1] at h
  omega

theorem mkSudoku_good (v : List Nat) (hlen : v.length = 81) (hle : ∀ x ∈ v, x ≤ 9)
    (hpeer : ∀ i, i < 81 → v.getD i 0 ≠ 0 →
      ∀ j ∈ peersList i, v.getD j 0 ≠ 0 → v.getD i 0 ≠ v.getD j 0) :
    Good (mkSudoku v) := by
  have hval : ∀ i, (mkSudoku v).val i = v.getD i 0 := fun i => rfl
  have hvlt : ∀ i, v.getD i 0 ≠ 0 → i < 81 := by
    intro i hi
    have := lt_length_of_getD_ne hi
    omega
  have hvle : ∀ i, v.getD i 0 ≤ 9 := by
    intro i
    by_cases hi : i < v.length
    · have hx : v.getD i 0 = v[i] := by
        simp [List.getD, List.getElem?_eq_getElem hi]
      rw [hx]
      exact hle _ (List.getElem_mem hi)
    · rw [List.getD_eq_default _ _ (by omega)]
      omega
  have hcnd_empty : ∀ j, j < 81 → v.getD j 0 = 0 →
      (mkSudoku v).cnd j = (List.range' 1 9).filter
        (fun x => ¬ ((peersList j).map fun p => v.getD p 0).contains x) := by
    intro j hj hj0
    rw [mkSudoku_cnd hj]
    have heq : getCandidatesOf v j =
        if v.getD j 0 ≠ 0 then [v.getD j 0]
        else (List.range' 1 9).filter
          fun x => ¬ ((peersList j).map fun p => v.getD p 0).contains x := rfl
    rw [heq, if_neg (by simpa using hj0)]
  refine ⟨by rw [mkSudoku_values]; exact hlen, by simp [mkSudoku_candidates, candidateDict],
    ?_, ?_, ?_⟩
  · intro i hi
    rw [hval] at hi
    rw [hval]
    exact mkSudoku_cnd_filled (hvlt i hi) hi
  · intro i x hx
    by_cases hi : i < 81
    · rw [mkSudoku_cnd hi] at hx
      by_cases hiv : v.getD i 0 ≠ 0
      · have heq : getCandidatesOf v i = [v.getD i 0] := by
          rw [← mkSudoku_cnd hi]
          exact mkSudoku_cnd_filled hi hiv
        rw [heq] at hx
        obtain rfl := List.mem_singleton.mp hx
        refine ⟨by omega, hvle i⟩
      · push_neg at hiv
        have heq := hcnd_empty i hi hiv
        rw [mkSudoku_cnd hi] at heq
        rw [heq] at hx
        exact mem_range'_1_9 (List.mem_of_mem_filter hx)
    · exfalso
      have : (mkSudoku v).cnd i = [] := by
        apply List.getD_eq_default
        simp [mkSudoku_candidates, candidateDict]
        omega
      rw [this] at hx
      cases hx
  · intro i hi hW j hj
    rw [hval] at hi ⊢
    have hi81 := hvlt i hi
    have hj81 := peers_lt hj
    by_cases hjv : v.getD j 0 ≠ 0
    · rw [mkSudoku_cnd_filled hj81 hjv]
      intro hmem
      obtain heq := List.mem_singleton.mp hmem
      exact hpeer i hi81 hi j hj hjv heq
    · push_neg at hjv
      rw [hcnd_empty j hj81 hjv]
      intro hmem
      have hprop := List.of_mem_filter hmem
      have hcont : ((peersList j).map fun p => v.getD p 0).contains (v.getD i 0) = true :=
        List.elem_iff.mpr (List.mem_map.mpr ⟨i, mem_peers_symm hj, rfl⟩)
      rw [hcont] at hprop
      simp at hprop

/-! ## Facts about `get_hidden_single` and `get_next_coord` -/

theorem getHiddenSingle_some {s : Sudoku} {d c : Nat}
    (h : getHiddenSingle s = some (d, c)) :
    1 ≤ d ∧ d ≤ 9 ∧ c < 81 ∧ s.val c = 0 ∧ d ∈ s.cnd c := by
  obtain ⟨digit, hdig, hinner⟩ := List.exists_of_findSome?_eq_some h
  obtain ⟨u, hu, hif⟩ := List.exists_of_findSome?_eq_some hinner
  set pc := u.filter (fun c' => s.val c' = 0 ∧ (s.cnd c').contains digit) with hpc
  by_cases hlen : pc.length = 1
  · rw [if_pos hlen] at hif
    obtain ⟨hd1, hc1⟩ : digit = d ∧ pc.headD 0 = c := by
      have := Option.some.inj hif
      exact ⟨congrArg Prod.fst this, congrArg Prod.snd this⟩
    have hhd : pc.headD 0 ∈ pc :=
      headD_mem (by intro he; rw [he] at hlen; simp at hlen)
    rw [hc1] at hhd
    have hcu : c ∈ u := List.mem_of_mem_filter hhd
    have hprop := List.of_mem_filter hhd
    simp only [decide_eq_true_eq, Bool.decide_and] at hprop
    have hprop2 := Bool.and_elim_right hprop
    have hprop1 := Bool.and_elim_left hprop
    obtain ⟨h1, h9⟩ := mem_range'_1_9 hdig
    subst hd1
    refine ⟨h1, h9, allUnits_coords_lt u hu c hcu, ?_, ?_⟩
    · simpa using hprop1
    · exact List.elem_iff.mp (by simpa using hprop2)
  · rw [if_neg hlen] at hif
    cases hif

theorem getHiddenSingle_none_of_full {s : Sudoku} (h : ∀ i, i < 81 → s.val i ≠ 0) :
    getHiddenSingle s = none := by
  apply List.findSome?_eq_none_iff.mpr
  intro digit hdig
  apply List.findSome?_eq_none_iff.mpr
  intro u hu
  have hfil : (u.filter fun c' => s.val c' = 0 ∧ (s.cnd c').contains digit) = [] := by
    apply List.filter_eq_nil_iff.mpr
    intro c' hc'
    have := h c' (allUnits_coords_lt u hu c' hc')
    simp [this]
  rw [hfil]
  simp

theorem foldl_min_aux (f : Option Nat → Nat → Option Nat)
    (hf : ∀ acc c, ∃ y, f acc c = some y ∧ (acc = some y ∨ y = c)) :
    ∀ (l : List Nat) (acc : Option Nat) (c : Nat),
      l.foldl f acc = some c → acc = some c ∨ c ∈ l := by
  intro l
  induction l with
  | nil => intro acc c h; exact Or.inl h
  | cons x xs ih =>
    intro acc c h
    simp only [List.foldl_cons] at h
    rcases ih (f acc x) c h with h1 | h1
    · obtain ⟨y, hy, hy2⟩ := hf acc x
      rw [hy] at h1
      obtain rfl : y = c := Option.some.inj h1
      rcases hy2 with h2 | h2
      · exact Or.inl h2
      · exact Or.inr (by rw [h2]; exact List.mem_cons_self x xs)
    · exact Or.inr (List.mem_cons_of_mem x h1)

theorem getNextCoord_some {s : Sudoku} {c : Nat} (h : getNextCoord s = some c) :
    c < 81 ∧ s.val c = 0 := by
  unfold getNextCoord at h
  have hmem : c ∈ (List.range 81).filter fun c' => s.val c' = 0 := by
    rcases foldl_min_aux _
      (fun acc c' => by
        cases acc with
        | none => exact ⟨c', rfl, Or.inr rfl⟩
        | some b =>
          by_cases hlt : (s.cnd c').length < (s.cnd b).length
          · exact ⟨c', by simp [hlt], Or.inr rfl⟩
          · exact ⟨b, by simp [hlt], Or.inl rfl⟩)
      _ _ _ h with h1 | h1
    · cases h1
    · exact h1
  constructor
  · simpa using List.mem_range.mp (List.mem_of_mem_filter hmem)
  · have := List.of_mem_filter hmem
    simpa using this

theorem getNextCoord_none_of_full {s : Sudoku} (h : ∀ i, i < 81 → s.val i ≠ 0) :
    getNextCoord s = none := by
  unfold getNextCoord
  have hfil : ((List.range 81).filter fun c' => s.val c' = 0) = [] := by
    apply List.filter_eq_nil_iff.mpr
    intro c' hc'
    have := h c' (List.mem_range.mp hc')
    simp [this]
  rw [hfil]
  rfl

theorem getNextCoord_full_of_none {s : Sudoku} (h : getNextCoord s = none) :
    ∀ i, i < 81 → s.val i ≠ 0 := by
  intro i hi
  by_contra hv
  have hv0 : s.val i = 0 := by omega
  unfold getNextCoord at h
  have hmem : i ∈ (List.range 81).filter fun c' => s.val c' = 0 := by
    apply List.mem_filter.mpr
    exact ⟨List.mem_range.mpr hi, by simp [hv0]⟩
  rcases hcase : (List.range 81).filter fun c' => s.val c' = 0 with _ | ⟨x, xs⟩
  · rw [hcase] at hmem; cases hmem
  · rw [hcase] at h
    simp only [List.foldl_cons] at h
    have hne : ∀ (l : List Nat) (b : Nat),
        l.foldl (fun best c =>
          match best with
          | none => some c
          | some b' => if (s.cnd c).length < (s.cnd b').length then some c else some b')
          (some b) ≠ none := by
      intro l
      induction l with
      | nil => intro b hcon; cases hcon
      | cons y ys ih =>
        intro b
        simp only [List.foldl_cons]
        by_cases hlt : (s.cnd y).length < (s.cnd b).length
        · simp only [hlt, if_pos]
          exact ih y
        · simp only [hlt, if_neg, ite_false]
          exact ih b
    exact hne xs x h

/-! ## Unfolding equations for the `solutions` step -/

theorem solStep_main_eq (rec : SolCall → List Sudoku × Sudoku) (s : Sudoku) :
    solStep rec (.main s) =
      match getHiddenSingle s with
      | some (digit, coord) =>
        if (setDigit s coord digit).has_contradiction then ([], setDigit s coord digit)
        else rec (.main (setDigit s coord digit))
      | none =>
        match getNextCoord s with
        | none => ([s], s)
        | some c => ((rec (.branch s c (s.cnd c))).1, s) := rfl

theorem solStep_main_hidden (rec : SolCall → List Sudoku × Sudoku) {s : Sudoku}
    {digit coord : Nat} (h : getHiddenSingle s = some (digit, coord)) :
    solStep rec (.main s) =
      if (setDigit s coord digit).has_contradiction then ([], setDigit s coord digit)
      else rec (.main (setDigit s coord digit)) := by
  rw [solStep_main_eq, h]

theorem solStep_main_none_none (rec : SolCall → List Sudoku × Sudoku) {s : Sudoku}
    (h1 : getHiddenSingle s = none) (h2 : getNextCoord s = none) :
    solStep rec (.main s) = ([s], s) := by
  rw [solStep_main_eq, h1, h2]

theorem solStep_main_none_some (rec : SolCall → List Sudoku × Sudoku) {s : Sudoku}
    {c : Nat} (h1 : getHiddenSingle s = none) (h2 : getNextCoord s = some c) :
    solStep rec (.main s) = ((rec (.branch s c (s.cnd c))).1, s) := by
  rw [solStep_main_eq, h1, h2]

theorem solStep_branch_nil (rec : SolCall → List Sudoku × Sudoku) (s : Sudoku) (c : Nat) :
    solStep rec (.branch s c []) = ([], s) := rfl

theorem solStep_branch_cons (rec : SolCall → List Sudoku × Sudoku) (s : Sudoku)
    (c d : Nat) (ds : List Nat) :
    solStep rec (.branch s c (d :: ds)) =
      ((if (setDigit (copySud s) c d).has_contradiction then []
        else (rec (.main (setDigit (copySud s) c d))).1) ++
        (rec (.branch s c ds)).1, s) := rfl

/-- On a fully filled board, `solutions` finds no hidden single and no free
coordinate, and therefore yields the board itself, unchanged. -/
theorem solF_main_full {s : Sudoku} (hfull : ∀ i, i < 81 → s.val i ≠ 0) (n : Nat) :
    solF (n + 1) (.main s) = ([s], s) := by
  rw [solF_succ]
  exact solStep_main_none_none _ (getHiddenSingle_none_of_full hfull)
    (getNextCoord_none_of_full hfull)

/-! ## Soundness of the search -/

def SolMain (n : Nat) : Prop :=
  ∀ s, Good s → s.has_contradiction = false →
    ∀ t ∈ (solF n (.main s)).1,
      Good t ∧ t.has_contradiction = false ∧ (∀ i, i < 81 → t.val i ≠ 0) ∧ vmono s t

def SolBranch (n : Nat) : Prop :=
  ∀ s c ds, Good s → s.has_contradiction = false → s.val c = 0 →
    (∀ d ∈ ds, d ∈ s.cnd c) →
    ∀ t ∈ (solF n (.branch s c ds)).1,
      Good t ∧ t.has_contradiction = false ∧ (∀ i, i < 81 → t.val i ≠ 0) ∧ vmono s t

theorem sol_sound : ∀ n, SolMain n ∧ SolBranch n := by
  intro n
  induction n with
  | zero =>
    constructor
    · intro s hG hfree t ht
      rw [solF_zero_main] at ht
      cases ht
    · intro s c ds hG hfree h0 hds t ht
      rw [solF_zero_branch] at ht
      cases ht
  | succ n ih =>
    obtain ⟨ihm, ihb⟩ := ih
    have hmain : SolMain (n + 1) := by
      intro s hG hfree t ht
      rw [solF_succ] at ht
      rcases hhs : getHiddenSingle s with _ | ⟨digit, coord⟩
      · rcases hnext : getNextCoord s with _ | c
        · rw [solStep_main_none_none _ hhs hnext] at ht
          obtain rfl : t = s := by simpa using ht
          exact ⟨hG, hfree, getNextCoord_full_of_none hnext, vmono_refl⟩
        · rw [solStep_main_none_some _ hhs hnext] at ht
          obtain ⟨hc81, hc0⟩ := getNextCoord_some hnext
          exact ihb s c (s.cnd c) hG hfree hc0 (fun d hd => hd) t ht
      · rw [solStep_main_hidden _ hhs] at ht
        obtain ⟨h1, h9, hc81, hc0, hdc⟩ := getHiddenSingle_some hhs
        split at ht
        · cases ht
        next hfree1 =>
          have hfree1' : (setDigit s coord digit).has_contradiction = false := by
            simpa using hfree1
          obtain ⟨hG1, hvm1, -⟩ := setDigit_good hG hc0 hdc hfree1'
          obtain ⟨hGt, hft, hfull, hvm2⟩ := ihm _ hG1 hfree1' t ht
          exact ⟨hGt, hft, hfull, vmono_trans hvm1 hvm2⟩
    have hbranch : SolBranch (n + 1) := by
      intro s c ds hG hfree h0 hds t ht
      rw [solF_succ] at ht
      cases ds with
      | nil =>
        rw [solStep_branch_nil] at ht
        cases ht
      | cons d ds =>
        rw [solStep_branch_cons] at ht
        simp only [List.mem_append] at ht
        rcases ht with ht | ht
        · split at ht
          · cases ht
          next hfree1 =>
            have hfree1' : (setDigit (copySud s) c d).has_contradiction = false := by
              simpa using hfree1
            have hGc : Good (copySud s) := copySud_good hG
            have h0c : (copySud s).val c = 0 := by rw [copySud_val]; exact h0
            have hdc : d ∈ (copySud s).cnd c := by
              rw [copySud_cnd]
              exact hds d (List.mem_cons_self d ds)
            obtain ⟨hG1, hvm1, -⟩ := setDigit_good hGc h0c hdc hfree1'
            obtain ⟨hGt, hft, hfull, hvm2⟩ := ihm _ hG1 hfree1' t ht
            refine ⟨hGt, hft, hfull, ?_⟩
            have hvmc : vmono s (copySud s) := fun i _ => rfl
            exact vmono_trans (vmono_trans hvmc hvm1) hvm2
        · exact ihb s c ds hG hfree h0
            (fun d' hd' => hds d' (List.mem_cons_of_mem d hd')) t ht
    exact ⟨hmain, hbranch⟩

/-! ## From the invariant to "every unit has each digit exactly once" -/

theorem filter_length_eq_count_map (u : List Nat) (f : Nat → Nat) (d : Nat) :
    (u.filter fun c => f c = d).length = (u.map f).count d := by
  induction u with
  | nil => rfl
  | cons x xs ih =>
    by_cases hx : f x = d
    · simp [List.filter_cons, hx, List.count_cons, ih]
    · simp [List.filter_cons, hx, List.count_cons, ih]

theorem good_full_unit_vals {t : Sudoku} (hG : Good t)
    (hfull : ∀ i, i < 81 → t.val i ≠ 0) {u : List Nat} (hu : u ∈ allUnits) :
    (u.map t.val).Nodup ∧ ∀ x ∈ u.map t.val, 1 ≤ x ∧ x ≤ 9 := by
  have hdist : ∀ a ∈ u, ∀ b ∈ u, a ≠ b → t.val a ≠ t.val b := by
    intro a ha b hb hab
    have ha81 := allUnits_coords_lt u hu a ha
    have hb81 := allUnits_coords_lt u hu b hb
    have hva := hfull a ha81
    have hvb := hfull b hb81
    have hpeer : b ∈ peersList a := mem_peers_of_unit hu ha hb (Ne.symm hab)
    have hnotin := hG.2.2.2.2 a hva (fun h => h) b hpeer
    rw [hG.2.2.1 b hvb] at hnotin
    intro heq
    exact hnotin (by rw [heq]; exact List.mem_singleton_self _)
  constructor
  · apply (allUnits_nodup u hu).map_on
    intro a ha b hb hfe
    by_contra hne
    exact hdist a ha b hb hne hfe
  · intro x hx
    obtain ⟨c, hc, rfl⟩ := List.mem_map.mp hx
    have hc81 := allUnits_coords_lt u hu c hc
    have hvc := hfull c hc81
    have := hG.2.2.1 c hvc
    exact hG.2.2.2.1 c (t.val c) (by rw [this]; exact List.mem_singleton_self _)

theorem good_full_unit_count {t : Sudoku} (hG : Good t)
    (hfull : ∀ i, i < 81 → t.val i ≠ 0) {u : List Nat} (hu : u ∈ allUnits)
    {d : Nat} (hd1 : 1 ≤ d) (hd9 : d ≤ 9) :
    (u.filter fun c => t.val c = d).length = 1 := by
  obtain ⟨hnodup, hbounds⟩ := good_full_unit_vals hG hfull hu
  have hlen : (u.map t.val).length = 9 := by
    rw [List.length_map]
    exact allUnits_length u hu
  have hsub : (u.map t.val).toFinset ⊆ Finset.Icc 1 9 := by
    intro x hx
    have := hbounds x (List.mem_toFinset.mp hx)
    exact Finset.mem_Icc.mpr this
  have hcard : (u.map t.val).toFinset.card = 9 := by
    rw [List.toFinset_card_of_nodup hnodup, hlen]
  have hicc : (Finset.Icc 1 9 : Finset Nat).card = 9 := by decide
  have heq : (u.map t.val).toFinset = Finset.Icc 1 9 :=
    Finset.eq_of_subset_of_card_le hsub (by omega)
  have hdmem : d ∈ u.map t.val := by
    rw [← List.mem_toFinset, heq]
    exact Finset.mem_Icc.mpr ⟨hd1, hd9⟩
  have hcount1 : (u.map t.val).count d ≤ 1 := List.nodup_iff_count_le_one.mp hnodup d
  have hcount2 : 1 ≤ (u.map t.val).count d := List.count_pos_iff.mpr hdmem
  rw [filter_length_eq_count_map]
  omega

theorem solutions_of_full {s : Sudoku} (hfull : ∀ i, i < 81 → s.val i ≠ 0) :
    solutions s = [s] := by
  show (solF ((11 * countZeros s + 10) + 1) (.main s)).1 = [s]
  rw [solF_main_full hfull]

/-! ## Claim C10: `copy` always resets the contradiction flag -/

/-- C10: for every Sudoku object `s`, `s.copy()` goes through `__init__`,
which sets `has_contradiction` to `False` unconditionally - even when `s`
itself is contradictory - while `values` and `candidates` are carried over
unchanged. -/
theorem copy_resets_contradiction (s : Sudoku) :
    (copySud s).has_contradiction = false ∧
    (copySud s).values = s.values ∧
    (copySud s).candidates = s.candidates :=
  ⟨rfl, rfl, rfl⟩

/-! ## Claim C9: exploring one branch does not disturb its siblings -/

/-- C9: at a branch point, the candidate loop of `solutions` never changes
the board from which the sibling candidates are tried: the final state of
the receiver after the whole loop is the original state `s` (for every
fuel), and each candidate `d` is explored on `setDigit (copySud s) c d`,
a clone of the unchanged `s`, with the remaining siblings again explored
from `s` itself. -/
theorem branch_explore_frame (n : Nat) (s : Sudoku) (c d : Nat) (ds : List Nat) :
    (∀ m, (solF m (.branch s c ds)).2 = s) ∧
    solF (n + 1) (.branch s c (d :: ds)) =
      ((if (setDigit (copySud s) c d).has_contradiction then []
        else (solF n (.main (setDigit (copySud s) c d))).1) ++
        (solF n (.branch s c ds)).1, s) := by
  constructor
  · intro m
    cases m with
    | zero => rfl
    | succ m => cases ds with
      | nil => rfl
      | cons d' ds' => rfl
  · rw [solF_succ, solStep_branch_cons]

/-! ## Claim C8: behaviour of `remove_candidate` -/

/-- C8: `remove_candidate(coord, digit)` is a no-op when the digit is not a
candidate at the coordinate; otherwise it removes the digit, sets the
contradiction flag exactly when the remaining list is empty (in the
two-or-more case the flag is untouched), and when exactly one candidate
remains it hands that remaining digit to `set_digit`, so that propagation
cascades. -/
theorem removeCandidate_spec (s : Sudoku) (c d : Nat) :
    (d ∉ s.cnd c → removeCandidate s c d = s) ∧
    (d ∈ s.cnd c →
      ((s.cnd c).filter (· ≠ d) = [] →
        removeCandidate s c d =
          { setCands s c ((s.cnd c).filter (· ≠ d)) with has_contradiction := true }) ∧
      (((s.cnd c).filter (· ≠ d)).length = 1 →
        removeCandidate s c d =
          setDigit (setCands s c ((s.cnd c).filter (· ≠ d))) c
            (((s.cnd c).filter (· ≠ d)).headD 0)) ∧
      (2 ≤ ((s.cnd c).filter (· ≠ d)).length →
        removeCandidate s c d = setCands s c ((s.cnd c).filter (· ≠ d)) ∧
        (removeCandidate s c d).has_contradiction = s.has_contradiction)) := by
  constructor
  · intro hd
    show (cascF (245 * sumT s.candidates + 1) (.rc s c d)).getD s = s
    rw [cascF_succ, cascStep_rc,
      if_neg (fun hc => hd (List.elem_iff.mp hc))]
    rfl
  · intro hd
    have hin : (s.cnd c).contains d = true := List.elem_iff.mpr hd
    refine ⟨?_, ?_, ?_⟩
    · intro hfe
      show (cascF (245 * sumT s.candidates + 1) (.rc s c d)).getD s = _
      rw [cascF_succ, cascStep_rc, if_pos hin,
        if_pos (by rw [List.isEmpty_iff]; exact hfe)]
      rfl
    · intro hl1
      have hlt := sumT_collapse_lt hd hl1
      have hemp : ¬ ((s.cnd c).filter (· ≠ d)).isEmpty = true := by
        rw [List.isEmpty_iff]
        intro he
        rw [he] at hl1
        simp at hl1
      show (cascF (245 * sumT s.candidates + 1) (.rc s c d)).getD s = _
      rw [cascF_succ, cascStep_rc, if_pos hin, if_neg hemp, if_pos hl1]
      have h2 := (casc_fuel_irrel
        (245 * sumT (setCands s c ((s.cnd c).filter (· ≠ d))).candidates + 245)).2.1
        (245 * sumT s.candidates)
        (setCands s c ((s.cnd c).filter (· ≠ d))) c
        (((s.cnd c).filter (· ≠ d)).headD 0) (by omega) (le_refl _)
      rw [← h2, setDigit_some]
      rfl
    · intro hl2
      have hemp : ¬ ((s.cnd c).filter (· ≠ d)).isEmpty = true := by
        rw [List.isEmpty_iff]
        intro he
        rw [he] at hl2
        simp at hl2
      have hl1 : ¬ ((s.cnd c).filter (· ≠ d)).length = 1 := by omega
      have he : removeCandidate s c d = setCands s c ((s.cnd c).filter (· ≠ d)) := by
        show (cascF (245 * sumT s.candidates + 1) (.rc s c d)).getD s = _
        rw [cascF_succ, cascStep_rc, if_pos hin, if_neg hemp, if_neg hl1]
        rfl
      exact ⟨he, by rw [he]; rfl⟩

theorem removeCandidate_spec_witness :
    removeCandidate ⟨[0, 0], [[1, 2], [1, 2]], false⟩ 0 2 =
      setDigit
        (setCands ⟨[0, 0], [[1, 2], [1, 2]], false⟩ 0
          (((⟨[0, 0], [[1, 2], [1, 2]], false⟩ : Sudoku).cnd 0).filter (· ≠ 2))) 0
        ((((⟨[0, 0], [[1, 2], [1, 2]], false⟩ : Sudoku).cnd 0).filter (· ≠ 2)).headD 0) :=
  ((removeCandidate_spec ⟨[0, 0], [[1, 2], [1, 2]], false⟩ 0 2).2 (by decide)).2.1 (by decide)

theorem cascade_terminates_witness :
    cascF 490 (.rc ⟨[1, 0], [[1], [2, 3]], false⟩ 1 2) =
      some (removeCandidate ⟨[1, 0], [[1], [2, 3]], false⟩ 1 2) ∧
    cascF 490 (.sd ⟨[1, 0], [[1], [2, 3]], false⟩ 1 2) =
      some (setDigit ⟨[1, 0], [[1], [2, 3]], false⟩ 1 2) :=
  ⟨(cascade_terminates ⟨[1, 0], [[1], [2, 3]], false⟩ 1 2 490).1 (by decide),
   (cascade_terminates ⟨[1, 0], [[1], [2, 3]], false⟩ 1 2 490).2 (by decide)⟩

/-! ## Claim C6: the hidden-single unit order -/

/-- A probe state for the unit scanning order: all squares empty, only
squares 3 = (row 0, col 3) and 45 = (row 5, col 0) have digit 1 among their
candidates.  With the spec's order (rows before columns) the first hidden
single for digit 1 would be at square 3; with the order actually produced by
the source (where the misnamed comprehension puts the columns first) it is
at square 45. -/
def orderProbe : Sudoku :=
  { values := List.replicate 81 0
    candidates := (List.range 81).map fun i =>
      if i = 3 ∨ i = 45 then [1, 2, 3, 4, 5, 6, 7, 8, 9] else [2, 3, 4, 5, 6, 7, 8, 9]
    has_contradiction := false }

/-- C6: the claimed unit order "rows first, then columns, then boxes" does
not match the code.  The first element of the source's `row_units` is the
*column* 0 (the comprehension swaps the loop roles, contradicting its own
docstring and `test_units` in `test_sudoku.py`), so `get_hidden_single`
scans columns before rows: on `orderProbe` it returns the digit-1 single of
column 0 (square 45), whereas the spec's order yields the digit-1 single of
row 0 (square 3). -/
theorem unit_order_columns_first :
    rowUnits.getD 0 [] = [key 0 0, key 1 0, key 2 0, key 3 0, key 4 0, key 5 0,
      key 6 0, key 7 0, key 8 0] ∧
    getHiddenSingle orderProbe = some (1, key 5 0) ∧
    getHiddenSingleSpec orderProbe = some (1, key 0 3) ∧
    key 5 0 ≠ key 0 3 :=
  ⟨rfl, rfl, rfl, by decide⟩

/-! ## Claim C7: candidates of filled squares -/

/-- C7 (amended): on every *non-contradictory* reachable board state, the
candidate list of a square holding a non-zero value is exactly the
singleton of that value.  (The restriction to non-contradictory states is
forced by the counterexample `contradicted_cell_empty_candidates`.) -/
theorem reachable_filled_cell_candidates (s : Sudoku) (hr : Reachable s)
    (hfree : s.has_contradiction = false) :
    ∀ c, s.val c ≠ 0 → s.cnd c = [s.val c] :=
  fun c hc => (reachable_apre hr hfree).2 c hc

theorem reachable_filled_cell_candidates_witness :
    (mkSudoku (List.replicate 81 5)).cnd 0 = [(mkSudoku (List.replicate 81 5)).val 0] :=
  reachable_filled_cell_candidates _
    (Reachable.base _ (by decide) (by decide)) rfl 0 (by decide)

/-- The grid used for the C7 counterexample: squares 0 and 1 empty, the
rest filled with 5. -/
def dupBoard : List Nat := 0 :: 0 :: List.replicate 79 5

/-- C7 counterexample: after `set_digit(0, 4)` followed by `set_digit(1, 4)`
(a reachable sequence of class operations), square 0 still holds value 4
but its candidate list has been emptied while the contradiction flag went
up - so on this reachable state a non-zero square does *not* have the
singleton of its value as candidates. -/
theorem contradicted_cell_empty_candidates :
    Reachable (setDigit (setDigit (mkSudoku dupBoard) 0 4) 1 4) ∧
    ((setDigit (setDigit (mkSudoku dupBoard) 0 4) 1 4).val 0 = 4 ∧
      (setDigit (setDigit (mkSudoku dupBoard) 0 4) 1 4).cnd 0 = [] ∧
      (setDigit (setDigit (mkSudoku dupBoard) 0 4) 1 4).cnd 0 ≠
        [(setDigit (setDigit (mkSudoku dupBoard) 0 4) 1 4).val 0]) :=
  ⟨Reachable.set _ 1 4 (by omega)
    (Reachable.set _ 0 4 (by omega)
      (Reachable.base _ (by decide) (by decide))),
   by decide⟩

/-! ## Claim C4: the hidden-single step works on the receiver, not a clone -/

/-- C4 (amended): when `get_hidden_single` finds a forced digit, `solutions`
applies it with `set_digit` to the invoked object *itself* - no clone is
made in this step - and recurses on that same mutated object (unless the
assignment raised the contradiction flag, in which case the mutated object
is simply abandoned).  Cloning happens only at branch points. -/
theorem hidden_single_step_inplace (n : Nat) (s : Sudoku) (digit coord : Nat)
    (h : getHiddenSingle s = some (digit, coord)) :
    solF (n + 1) (.main s) =
      if (setDigit s coord digit).has_contradiction then ([], setDigit s coord digit)
      else solF n (.main (setDigit s coord digit)) := by
  rw [solF_succ]
  exact solStep_main_hidden _ h

/-- A board with a hidden single: square 0 = (0,0) empty, the rest 5s;
digit 1 is forced at square 0. -/
def hiddenBoard : Sudoku := mkSudoku (0 :: List.replicate 80 5)

theorem hidden_single_step_inplace_witness :
    solF (2 + 1) (.main hiddenBoard) =
      if (setDigit hiddenBoard 0 1).has_contradiction then ([], setDigit hiddenBoard 0 1)
      else solF 2 (.main (setDigit hiddenBoard 0 1)) :=
  hidden_single_step_inplace 2 hiddenBoard 1 0 (by decide)

/-- C4 counterexample: running `solutions()` to completion on `hiddenBoard`
leaves the invoked object with different `values` and `candidates` than it
started with - the hidden-single step mutated the receiver in place, so the
original board is *not* preserved. -/
theorem hidden_single_step_mutates_cex :
    (solutionsAux (11 * countZeros hiddenBoard + 11) hiddenBoard).2.values ≠
      hiddenBoard.values ∧
    (solutionsAux (11 * countZeros hiddenBoard + 11) hiddenBoard).2.candidates ≠
      hiddenBoard.candidates := by
  have hfull : ∀ i, i < 81 → (setDigit hiddenBoard 0 1).val i ≠ 0 := by decide
  have hh : getHiddenSingle hiddenBoard = some (1, 0) := by decide
  have hcon : (setDigit hiddenBoard 0 1).has_contradiction = false := by decide
  have hstep : solutionsAux (11 * countZeros hiddenBoard + 11) hiddenBoard =
      ([setDigit hiddenBoard 0 1], setDigit hiddenBoard 0 1) := by
    show solF ((11 * countZeros hiddenBoard + 10) + 1) (.main hiddenBoard) = _
    rw [solF_succ, solStep_main_hidden _ hh, if_neg (by simp [hcon])]
    show solF ((11 * countZeros hiddenBoard + 9) + 1)
      (.main (setDigit hiddenBoard 0 1)) = _
    exact solF_main_full hfull _
  rw [hstep]
  exact ⟨by decide, by decide⟩

/-! ## Claim C2: same-row duplicates in the input -/

/-- C2 (amended): a duplicated digit in the input does not by itself produce
an empty candidate list at construction, nor zero solutions.  In
particular, on any fully filled input grid - however inconsistent - every
square's candidate list is the (non-empty) singleton of its digit, and
`solutions()` emits the input board itself as its only solution: the
constructor and the solver never validate squares that were filled from the
start. -/
theorem full_grid_solutions (v : List Nat) (hfull : ∀ i, i < 81 → v.getD i 0 ≠ 0) :
    (∀ i, i < 81 → (mkSudoku v).cnd i ≠ []) ∧
    solutions (mkSudoku v) = [mkSudoku v] := by
  constructor
  · intro i hi
    rw [mkSudoku_cnd_filled hi (hfull i hi)]
    simp
  · exact solutions_of_full hfull

theorem full_grid_solutions_witness :
    (mkSudoku (List.replicate 81 7)).cnd 3 ≠ [] ∧
    solutions (mkSudoku (List.replicate 81 7)) = [mkSudoku (List.replicate 81 7)] :=
  ⟨(full_grid_solutions _ (by decide)).1 3 (by decide),
   (full_grid_solutions _ (by decide)).2⟩

/-- C2 counterexample: the all-2s grid has two equal non-zero digits in the
same row (squares (0,0) and (0,1)), yet after construction no square has an
empty candidate list, and `solutions()` yields exactly one solution rather
than zero. -/
theorem same_row_duplicate_one_solution :
    (mkSudoku (List.replicate 81 2)).val (key 0 0) = 2 ∧
    (mkSudoku (List.replicate 81 2)).val (key 0 1) = 2 ∧
    ((List.range 81).all
      fun i => !((mkSudoku (List.replicate 81 2)).cnd i).isEmpty) = true ∧
    (solutions (mkSudoku (List.replicate 81 2))).length = 1 := by
  refine ⟨by decide, by decide, by decide, ?_⟩
  rw [solutions_of_full (by decide)]
  rfl

/-! ## Claim C1: soundness of emitted solutions -/

/-- C1 counterexample: the fully filled all-1s grid is emitted verbatim by
`solutions()` (a board with no free square is yielded without any check),
and row 0 of that emitted board contains the digit 2 zero times - not
exactly once.  Soundness as claimed fails without an assumption on the
input clues. -/
theorem all_ones_grid_emitted_invalid :
    solutions (mkSudoku (List.replicate 81 1)) = [mkSudoku (List.replicate 81 1)] ∧
    (((List.range 9).map fun c => key 0 c).filter
      fun c => (mkSudoku (List.replicate 81 1)).val c = 2).length = 0 := by
  refine ⟨solutions_of_full (by decide), by decide⟩

/-- C1 (amended): *provided the input clues are peer-consistent* - no two
distinct non-zero squares sharing a unit hold the same digit - every board
emitted by `solutions()` retains every originally non-zero square and fills
every row, column and box with each digit 1..9 exactly once.  (The
hypothesis is forced by `all_ones_grid_emitted_invalid`.) -/
theorem solutions_sound (v : List Nat) (hlen : v.length = 81)
    (hle : ∀ x ∈ v, x ≤ 9)
    (hpeer : ∀ i, i < 81 → v.getD i 0 ≠ 0 →
      ∀ j ∈ peersList i, v.getD j 0 ≠ 0 → v.getD i 0 ≠ v.getD j 0)
    (t : Sudoku) (ht : t ∈ solutions (mkSudoku v)) :
    (∀ i, i < 81 → v.getD i 0 ≠ 0 → t.val i = v.getD i 0) ∧
    ∀ u ∈ allUnits, ∀ d, 1 ≤ d → d ≤ 9 →
      (u.filter fun c => t.val c = d).length = 1 := by
  have hG := mkSudoku_good v hlen hle hpeer
  obtain ⟨hGt, hft, hfull, hvm⟩ :=
    (sol_sound (11 * countZeros (mkSudoku v) + 11)).1 (mkSudoku v) hG rfl t ht
  constructor
  · intro i hi81 hvi
    exact hvm i hvi
  · intro u hu d hd1 hd9
    exact good_full_unit_count hGt hfull hu hd1 hd9

/-- The completed grid used to witness C1 (a valid solved sudoku). -/
def solvedGrid : List Nat :=
  [4,8,7,3,1,2,6,9,5,
   5,9,3,6,8,4,2,7,1,
   1,2,6,5,9,7,3,8,4,
   7,3,5,8,4,9,1,6,2,
   9,1,4,2,6,5,8,3,7,
   2,6,8,7,3,1,5,4,9,
   8,5,1,4,7,6,9,2,3,
   3,7,9,1,2,8,4,5,6,
   6,4,2,9,5,3,7,1,8]

theorem solutions_sound_witness :
    (mkSudoku solvedGrid).val 0 = solvedGrid.getD 0 0 ∧
    (((List.range 9).map fun c => key 0 c).filter
      fun c => (mkSudoku solvedGrid).val c = 5).length = 1 := by
  have hfull : ∀ i, i < 81 → solvedGrid.getD i 0 ≠ 0 := by decide
  have hmem : mkSudoku solvedGrid ∈ solutions (mkSudoku solvedGrid) := by
    rw [solutions_of_full (s := mkSudoku solvedGrid) hfull]
    exact List.mem_singleton_self _
  have h := solutions_sound solvedGrid (by decide) (by decide) (by decide) _ hmem
  refine ⟨h.1 0 (by decide) (by decide), ?_⟩
  have hu : ((List.range 9).map fun c => key 0 c) ∈ allUnits := by decide
  exact h.2 _ hu 5 (by decide) (by decide)
